import Mathlib

/-!
Verification development for the chunking, scheduling and reconciliation core
of the AI-translate repository (src/services/geminiService.ts).

The source file contains several near-duplicate iterations of the same
service.  We refer to them as:
  variant 1: lines   1-268  (tiled ownership reconciliation, 180s/20s windows),
  variant 2: lines 270-561  (overlap-discard reconciliation, 300s/15s windows),
  variant 3: lines 563-846  (fuzzy dedup, eps = 0.2, K = 10),
  variant 4: lines 848-1072 (fuzzy dedup, eps = 0.3, K = 15, size-based chunks).

JavaScript numbers are modelled as rationals; a possibly-NaN number is
modelled as an Option over the rationals with none standing for NaN
(timestamps produced by arithmetic never overflow in the modelled domain,
so NaN is the only IEEE special value the modelled code can produce).
Strings are Lean strings; the character-level JS string operations used by
the code (trim, split, toLowerCase, substring) are modelled on the
underlying character lists.
-/

namespace AITranslate

/-- TranscriptLine from src/types.ts: one transcribed sentence with a
speaker label, English text, Chinese translation and two timestamps. -/
structure TranscriptLine where
  speaker : String
  english : String
  chinese : String
  startTimeInSeconds : ℚ
  endTimeInSeconds : ℚ
deriving DecidableEq, Repr

/-- VocabularyItem from src/types.ts. -/
structure VocabularyItem where
  word : String
  ipa : String
  definition : String
  «example» : String
deriving DecidableEq, Repr

/-- TranscriptionResult from src/types.ts; also used for the per-chunk
results (the ChunkResult of the spec). -/
structure TranscriptionResult where
  transcript : List TranscriptLine
  vocabulary : List VocabularyItem
deriving DecidableEq, Repr

/-- Empty ChunkResult sentinel written to a chunk slot when its oracle
call throws (geminiService.ts lines 219 and 512). -/
def emptyResult : TranscriptionResult := { transcript := [], vocabulary := [] }

/-- Shifting one chunk-relative line into global coordinates: both
timestamps get the chunk offset added (geminiService.ts lines 246-250
and 539-543). -/
def offsetLine (off : ℚ) (l : TranscriptLine) : TranscriptLine :=
  { l with
    startTimeInSeconds := off + l.startTimeInSeconds,
    endTimeInSeconds := off + l.endTimeInSeconds }

/-- Generic accumulate-if-new loop: the shape shared by the vocabulary
merge and the fuzzy dedup in the source, where each candidate is pushed
to the end of the accumulated list unless a predicate over the list
accumulated so far rejects it. -/
def keepStep (pred : List α → α → Bool) (acc : List α) (x : α) : List α :=
  if pred acc x then acc else acc ++ [x]

/-- Case-insensitive word equality used by every vocabulary merge in the
source: v.word.toLowerCase() === item.word.toLowerCase(). -/
def wordMatches (v item : VocabularyItem) : Bool :=
  v.word.toLower == item.word.toLower

/-- One candidate step of the vocabulary merge (geminiService.ts lines
256-258): push the item unless some already collected entry has a
case-insensitively equal word. -/
def vocabStep : List VocabularyItem → VocabularyItem → List VocabularyItem :=
  keepStep (fun vs item => vs.any (fun v => wordMatches v item))

/-- Vocabulary merge for the items of one chunk (geminiService.ts lines
255-259): an item is appended only when no already collected entry has a
case-insensitively equal word. -/
def appendVocab (acc : List VocabularyItem) (items : List VocabularyItem) :
    List VocabularyItem :=
  items.foldl vocabStep acc

/-- Variant 1 merge step for one chunk (geminiService.ts lines 230-261):
the chunk owns a line when it is the last chunk or the chunk-relative
start is below the step size; owned lines are pushed after adding the
global offset index * stepSize, and the vocabulary entries are merged
case-insensitively. -/
def tiledChunkStep (stepSize : ℚ) (lastIndex : ℕ) (acc : TranscriptionResult)
    (p : ℕ × TranscriptionResult) : TranscriptionResult :=
  let globalOffset : ℚ := (p.1 : ℚ) * stepSize
  let kept := p.2.transcript.filter
    (fun l => p.1 == lastIndex || decide (l.startTimeInSeconds < stepSize))
  { transcript := acc.transcript ++ kept.map (offsetLine globalOffset),
    vocabulary := appendVocab acc.vocabulary p.2.vocabulary }

/-- Variant 1 reconciliation (geminiService.ts lines 230-261): fold the
index-aligned chunk results in chunk order through the tiled ownership
merge step. -/
def reconcileTiled (stepSize : ℚ) (results : List TranscriptionResult) :
    TranscriptionResult :=
  results.enum.foldl (tiledChunkStep stepSize (results.length - 1)) emptyResult

/-- Variant 2 merge step for one chunk (geminiService.ts lines 527-553):
for every chunk except the first, lines whose chunk-relative start is
below the overlap duration are discarded; the remaining lines are pushed
with the global offset index * stepSize added. -/
def overlapChunkStep (stepSize overlap : ℚ) (acc : TranscriptionResult)
    (p : ℕ × TranscriptionResult) : TranscriptionResult :=
  let offset : ℚ := (p.1 : ℚ) * stepSize
  let kept := p.2.transcript.filter
    (fun l => !(decide (0 < p.1) && decide (l.startTimeInSeconds < overlap)))
  { transcript := acc.transcript ++ kept.map (offsetLine offset),
    vocabulary := appendVocab acc.vocabulary p.2.vocabulary }

/-- Variant 2 reconciliation (geminiService.ts lines 527-553). -/
def reconcileOverlapDiscard (stepSize overlap : ℚ)
    (results : List TranscriptionResult) : TranscriptionResult :=
  results.enum.foldl (overlapChunkStep stepSize overlap) emptyResult

/-- Character-level model of s.substring(0, k).toLowerCase() applied to
the English text of a line (geminiService.ts lines 821-822, 1046). -/
def lowerTake (k : ℕ) (s : String) : List Char :=
  (s.toList.take k).map Char.toLower

/-- Fuzzy duplicate test of variants 3 and 4 (geminiService.ts lines
819-823 and 1044-1047): starts within eps of each other and
case-insensitively equal first k characters of the English text. -/
def similarLine (eps : ℚ) (k : ℕ) (a b : TranscriptLine) : Bool :=
  decide (|a.startTimeInSeconds - b.startTimeInSeconds| < eps) &&
    lowerTake k a.english == lowerTake k b.english

/-- One candidate step of the fuzzy dedup: push the new line unless some
already accepted line is similar to it (geminiService.ts lines 816-827). -/
def fuzzyStep (eps : ℚ) (k : ℕ) : List TranscriptLine → TranscriptLine →
    List TranscriptLine :=
  keepStep (fun acc l => acc.any (fun e => similarLine eps k e l))

/-- Fuzzy dedup of a flat candidate list in arrival order. -/
def dedupFuzzy (eps : ℚ) (k : ℕ) (ls : List TranscriptLine) :
    List TranscriptLine :=
  ls.foldl (fuzzyStep eps k) []

/-- Variants 3/4 merge (geminiService.ts lines 813-838 and 1040-1058):
chunk results are visited in index order; each line is pushed unless a
previously accepted line is similar (the timestamps are already global
in these variants, so no offset is added), and vocabularies are merged
case-insensitively. -/
def reconcileFuzzy (eps : ℚ) (k : ℕ) (results : List TranscriptionResult) :
    TranscriptionResult :=
  results.foldl
    (fun acc r =>
      { transcript := r.transcript.foldl (fuzzyStep eps k) acc.transcript,
        vocabulary := appendVocab acc.vocabulary r.vocabulary })
    emptyResult

/-- Comparison relation of the final sort (geminiService.ts lines 263,
555, 840, 1060): ascending by startTimeInSeconds. -/
def startLE (a b : TranscriptLine) : Prop :=
  a.startTimeInSeconds ≤ b.startTimeInSeconds

instance : DecidableRel startLE := fun a b =>
  inferInstanceAs (Decidable (a.startTimeInSeconds ≤ b.startTimeInSeconds))

instance : IsTotal TranscriptLine startLE :=
  ⟨fun a b => le_total a.startTimeInSeconds b.startTimeInSeconds⟩

instance : IsTrans TranscriptLine startLE :=
  ⟨fun _ _ _ h h2 => le_trans h h2⟩

/-- Model of the final transcript sort: JavaScript Array.prototype.sort
with the comparator (a, b) => a.startTimeInSeconds - b.startTimeInSeconds
is required to be a stable sort by start time; a stable sort with respect
to a total preorder has a unique result, which insertion sort computes. -/
def sortByStart (ls : List TranscriptLine) : List TranscriptLine :=
  List.insertionSort startLE ls

/-- Variant 1 post-scheduling pipeline (geminiService.ts lines 230-266):
tiled reconciliation followed by the stable sort of the transcript. -/
def processAudioTiled (stepSize : ℚ) (results : List TranscriptionResult) :
    TranscriptionResult :=
  let merged := reconcileTiled stepSize results
  { merged with transcript := sortByStart merged.transcript }

/-- Variant 2 post-scheduling pipeline (geminiService.ts lines 527-556). -/
def processAudioOverlapDiscard (stepSize overlap : ℚ)
    (results : List TranscriptionResult) : TranscriptionResult :=
  let merged := reconcileOverlapDiscard stepSize overlap results
  { merged with transcript := sortByStart merged.transcript }

/-- AudioSegmenter loop of variants 1 and 2 (geminiService.ts lines
184-192 and 467-486), started at an arbitrary start offset: while
start < totalDuration, emit the window from start to
min (start + window) totalDuration, advance by stepSize, and stop as
soon as the emitted end reaches totalDuration.  The positivity of the
step size (a valid configuration) is what makes the loop terminate. -/
def segmentFrom (window stepSize total : ℚ) (hstep : 0 < stepSize)
    (start : ℚ) : List (ℚ × ℚ) :=
  if _hlt : start < total then
    let e := min (start + window) total
    if total ≤ e then [(start, e)]
    else (start, e) :: segmentFrom window stepSize total hstep (start + stepSize)
  else []
termination_by (⌈(total - start) / stepSize⌉).toNat
decreasing_by
  have h1 : (0 : ℚ) < (total - start) / stepSize := by
    apply div_pos _ hstep
    linarith
  have h2 : (1 : ℤ) ≤ ⌈(total - start) / stepSize⌉ := by
    exact_mod_cast Int.ceil_pos.mpr h1
  have h3 : ⌈(total - (start + stepSize)) / stepSize⌉ =
      ⌈(total - start) / stepSize⌉ - 1 := by
    have : (total - (start + stepSize)) / stepSize =
        (total - start) / stepSize - 1 := by
      field_simp
      ring
    rw [this, Int.ceil_sub_one]
  omega

/-- AudioSegmenter of the source, as the list of emitted
(start, end) windows. -/
def segmentWindows (window stepSize total : ℚ) (hstep : 0 < stepSize) :
    List (ℚ × ℚ) :=
  segmentFrom window stepSize total hstep 0

/-- JavaScript whitespace test for the characters relevant to the
modelled strings (space, tab, line feed, carriage return). -/
def isJsWs (c : Char) : Bool :=
  c == ' ' || c == '\t' || c == '\n' || c == '\r'

/-- Model of String.prototype.trim on the character list. -/
def trimChars (cs : List Char) : List Char :=
  ((cs.dropWhile isJsWs).reverse.dropWhile isJsWs).reverse

/-- Model of s.split(single-character separator) from JavaScript:
"".split gives one empty part, and every separator occurrence starts a
new part. -/
def splitOnChar (sep : Char) : List Char → List (List Char)
  | [] => [[]]
  | c :: cs =>
    if c == sep then [] :: splitOnChar sep cs
    else
      match splitOnChar sep cs with
      | p :: ps => (c :: p) :: ps
      | [] => [[c]]

/-- Numeric value of one decimal digit character. -/
def digitVal (c : Char) : ℕ := c.toNat - '0'.toNat

/-- Numeric value of a list of decimal digit characters. -/
def digitsToNat (ds : List Char) : ℕ :=
  ds.foldl (fun n c => 10 * n + digitVal c) 0

/-- Longest-valid-prefix parser for the decimal subset of the JavaScript
numeric grammar: optional sign, integer digits and/or a dot with
fraction digits, and an optional exponent part that is consumed only
when it is well formed.  Returns the parsed value and the unconsumed
rest, or none when no prefix parses.  The hexadecimal, binary and
Infinity forms of the full JS grammar are outside the behaviour the
transcription pipeline relies on and are not modelled. -/
def parseDecPrefix (cs : List Char) : Option (ℚ × List Char) :=
  let sgn : ℚ × List Char :=
    match cs with
    | '+' :: rest => (1, rest)
    | '-' :: rest => (-1, rest)
    | _ => (1, cs)
  let cs1 := sgn.2
  let intDigits := cs1.takeWhile Char.isDigit
  let cs2 := cs1.dropWhile Char.isDigit
  let frac : List Char × List Char :=
    match cs2 with
    | '.' :: rest => (rest.takeWhile Char.isDigit, rest.dropWhile Char.isDigit)
    | _ => ([], cs2)
  let fracDigits := frac.1
  let cs3 := frac.2
  if intDigits.isEmpty && fracDigits.isEmpty then none
  else
    let mantissa : ℚ :=
      (digitsToNat intDigits : ℚ) +
        (digitsToNat fracDigits : ℚ) / (10 : ℚ) ^ fracDigits.length
    let withExp : ℚ × List Char :=
      match cs3 with
      | e :: rest1 =>
        if e == 'e' || e == 'E' then
          let esgn : ℤ × List Char :=
            match rest1 with
            | '+' :: r => (1, r)
            | '-' :: r => (-1, r)
            | _ => (1, rest1)
          let eDigits := esgn.2.takeWhile Char.isDigit
          if eDigits.isEmpty then (mantissa, cs3)
          else (mantissa * (10 : ℚ) ^ (esgn.1 * (digitsToNat eDigits : ℤ)),
            esgn.2.dropWhile Char.isDigit)
        else (mantissa, cs3)
      | [] => (mantissa, cs3)
    some (sgn.1 * withExp.1, withExp.2)

/-- Model of the JavaScript Number conversion on a string (used through
.map(Number) on the split parts): trimmed empty input gives 0, otherwise
the whole trimmed input must be a valid numeric literal, else NaN. -/
def numOfChars (cs : List Char) : Option ℚ :=
  let t := trimChars cs
  if t.isEmpty then some 0
  else
    match parseDecPrefix t with
    | some (q, []) => some q
    | _ => none

/-- Model of the JavaScript parseFloat on a string: skip leading
whitespace, parse the longest valid numeric prefix, NaN when none. -/
def parseFloatChars (cs : List Char) : Option ℚ :=
  match parseDecPrefix (cs.dropWhile isJsWs) with
  | some (q, _) => some q
  | none => none

/-- NaN-propagating addition of JavaScript numbers. -/
def jsAdd : Option ℚ → Option ℚ → Option ℚ
  | some a, some b => some (a + b)
  | _, _ => none

/-- NaN-propagating multiplication by a literal constant. -/
def jsMul (x : Option ℚ) (k : ℚ) : Option ℚ :=
  x.map (fun q => q * k)

/-- Model of the JavaScript expression x || 0 on a number: NaN (and 0
itself) give 0, everything else is returned unchanged. -/
def jsOrZero (x : Option ℚ) : Option ℚ :=
  some (x.getD 0)

/-- Input type of parseTimeToSeconds in variant 1 (geminiService.ts line
15): a number (possibly NaN), a string, undefined or null. -/
inductive JSTime where
  | undef : JSTime
  | null : JSTime
  | num : Option ℚ → JSTime
  | str : String → JSTime

/-- Variant 1 parseTimeToSeconds (geminiService.ts lines 15-34):
undefined and null give 0; numbers are returned as-is; strings are
trimmed, the empty string gives 0; a string containing a colon is split
on colons, two parts give p0 * 60 + (p1 or 0 when falsy), three parts
give p0 * 3600 + p1 * 60 + (p2 or 0 when falsy); every other string is
given to parseFloat with NaN collapsed to 0. -/
def parseTimeToSeconds : JSTime → Option ℚ
  | .undef => some 0
  | .null => some 0
  | .num q => q
  | .str s =>
    let timeStr := trimChars s.toList
    if timeStr.isEmpty then some 0
    else if timeStr.contains ':' then
      match (splitOnChar ':' timeStr).map numOfChars with
      | [m, s2] => jsAdd (jsMul m 60) (jsOrZero s2)
      | [h, m, s2] =>
        jsAdd (jsAdd (jsMul h 3600) (jsMul m 60)) (jsOrZero s2)
      | _ => some ((parseFloatChars timeStr).getD 0)
    else some ((parseFloatChars timeStr).getD 0)

/-- MAX_CONCURRENCY of variant 1 (geminiService.ts line 9). -/
def MAX_CONCURRENCY : ℕ := 2

/-- STEP_SIZE of variant 1 (geminiService.ts line 8): 180s windows with
20s overlap give a 160s step. -/
def STEP_SIZE : ℚ := 180 - 20

/-- Phase of one chunk task in the scheduling loop of processAudio
(geminiService.ts lines 200-226): pending before the admission check has
been passed, awaiting while the oracle call is outstanding, done after
the result slot was written and the completed counter incremented (those
two effects happen in one synchronous continuation with no await between
them, lines 216-222, so they are one atomic transition). -/
inductive TaskPhase where
  | pending : TaskPhase
  | awaiting : TaskPhase
  | done : TaskPhase
deriving DecidableEq, Repr

/-- Shared state of the scheduling loop: the per-task phases, the
index-aligned result slot array chunkResults, and completedCount. -/
structure SchedState where
  phases : List TaskPhase
  slots : List (Option TranscriptionResult)
  completedCount : ℕ
deriving DecidableEq, Repr

/-- Model of chunkResults.filter(r => r).length (geminiService.ts lines
204 and 496): the number of already written result slots. -/
def countFilled (slots : List (Option TranscriptionResult)) : ℕ :=
  (slots.filter Option.isSome).length

/-- Admission condition of the busy-wait loop (geminiService.ts lines
204-206 and 496-498): a task stays blocked while
completedCount - chunkResults.filter(r => r).length >= MAX_CONCURRENCY,
computed in JavaScript number arithmetic, hence over the integers. -/
def admissionBlocked (maxConc : ℕ) (s : SchedState) : Prop :=
  (maxConc : ℤ) ≤ (s.completedCount : ℤ) - (countFilled s.slots : ℤ)

instance (maxConc : ℕ) (s : SchedState) : Decidable (admissionBlocked maxConc s) :=
  inferInstanceAs (Decidable ((maxConc : ℤ) ≤ _))

/-- Outcome of one task body around the oracle call (geminiService.ts
lines 214-220 and 507-513): a successful transcribeChunk result is
written to the slot, a thrown error is caught and degrades to the empty
ChunkResult; no exception propagates out of the task. -/
def taskResult (o : Except String TranscriptionResult) : TranscriptionResult :=
  match o with
  | .ok r => r
  | .error _ => emptyResult

/-- Interleaving semantics of the scheduled tasks.  A pending task may
pass the admission check whenever the busy-wait condition is false and
becomes awaiting; an awaiting task may resolve at any time with its
oracle outcome, writing its reserved slot and incrementing
completedCount atomically. -/
inductive SchedStep (maxConc : ℕ)
    (oracle : List (Except String TranscriptionResult)) :
    SchedState → SchedState → Prop where
  | start (s : SchedState) (i : ℕ) :
      s.phases[i]? = some .pending →
      ¬ admissionBlocked maxConc s →
      SchedStep maxConc oracle s { s with phases := s.phases.set i .awaiting }
  | finish (s : SchedState) (i : ℕ) (o : Except String TranscriptionResult) :
      s.phases[i]? = some .awaiting →
      oracle[i]? = some o →
      SchedStep maxConc oracle s
        { phases := s.phases.set i .done,
          slots := s.slots.set i (some (taskResult o)),
          completedCount := s.completedCount + 1 }

/-- Initial scheduling state for n chunk tasks: all pending, all result
slots empty, completedCount zero. -/
def initState (n : ℕ) : SchedState :=
  { phases := List.replicate n .pending,
    slots := List.replicate n none,
    completedCount := 0 }

/-- States reachable during a run of the scheduler on the given oracle. -/
def Reachable (maxConc : ℕ)
    (oracle : List (Except String TranscriptionResult)) (s : SchedState) :
    Prop :=
  Relation.ReflTransGen (SchedStep maxConc oracle) (initState oracle.length) s

/-- Number of tasks simultaneously awaiting the oracle. -/
def countAwaiting (s : SchedState) : ℕ :=
  (s.phases.filter (· == TaskPhase.awaiting)).length

/-- Terminal state: no further scheduling step is possible. -/
def Terminal (maxConc : ℕ)
    (oracle : List (Except String TranscriptionResult)) (s : SchedState) :
    Prop :=
  ∀ t, ¬ SchedStep maxConc oracle s t

/-! Characterizations of the reconciliation folds. -/

theorem foldl_tiled_transcript (stepSize : ℚ) (lastIndex : ℕ)
    (ps : List (ℕ × TranscriptionResult)) (acc : TranscriptionResult) :
    (ps.foldl (tiledChunkStep stepSize lastIndex) acc).transcript =
      acc.transcript ++ ps.flatMap (fun p =>
        (p.2.transcript.filter (fun l =>
          p.1 == lastIndex || decide (l.startTimeInSeconds < stepSize))).map
          (offsetLine ((p.1 : ℚ) * stepSize))) := by
  induction ps generalizing acc with
  | nil => simp
  | cons p ps ih => simp [tiledChunkStep, ih]

theorem reconcileTiled_transcript (stepSize : ℚ)
    (results : List TranscriptionResult) :
    (reconcileTiled stepSize results).transcript =
      results.enum.flatMap (fun p =>
        (p.2.transcript.filter (fun l =>
          p.1 == results.length - 1 ||
            decide (l.startTimeInSeconds < stepSize))).map
          (offsetLine ((p.1 : ℚ) * stepSize))) := by
  simpa [reconcileTiled, emptyResult] using
    foldl_tiled_transcript stepSize (results.length - 1) results.enum emptyResult

theorem mem_reconcileTiled_transcript (stepSize : ℚ)
    (results : List TranscriptionResult) (l : TranscriptLine) :
    l ∈ (reconcileTiled stepSize results).transcript ↔
      ∃ i r, results[i]? = some r ∧ ∃ L ∈ r.transcript,
        (i = results.length - 1 ∨ L.startTimeInSeconds < stepSize) ∧
        l = offsetLine ((i : ℚ) * stepSize) L := by
  rw [reconcileTiled_transcript]
  simp only [List.mem_flatMap, List.mem_map, List.mem_filter]
  constructor
  · rintro ⟨⟨i, r⟩, hmem, L, ⟨hL, hcond⟩, hoff⟩
    rw [List.mk_mem_enum_iff_getElem?] at hmem
    refine ⟨i, r, hmem, L, hL, ?_, hoff.symm⟩
    simpa [Bool.or_eq_true, beq_iff_eq, decide_eq_true_eq] using hcond
  · rintro ⟨i, r, hir, L, hL, hcond, hoff⟩
    refine ⟨(i, r), ?_, L, ⟨hL, ?_⟩, hoff.symm⟩
    · exact List.mk_mem_enum_iff_getElem?.mpr hir
    · simpa [Bool.or_eq_true, beq_iff_eq, decide_eq_true_eq] using hcond

/-- Statement of claim C1 exactly as written: for every step size and
every index-aligned list of chunks (each a duration paired with a
chunk-local result), the reconciled transcript contains exactly the
lines of each non-final chunk i whose chunk-relative start lies in
the interval from 0 inclusive to stepSeconds exclusive, plus the lines
of the final chunk whose relative start lies in the interval from 0
inclusive to that chunk's own duration exclusive, each shifted by
i * stepSeconds. -/
def ClaimC1 : Prop :=
  ∀ (stepSize : ℚ) (chunks : List (ℚ × TranscriptionResult)), 0 < stepSize →
    ∀ l, l ∈ (reconcileTiled stepSize (chunks.map Prod.snd)).transcript ↔
      ∃ i d r, chunks[i]? = some (d, r) ∧ ∃ L ∈ r.transcript,
        0 ≤ L.startTimeInSeconds ∧
        (if i = chunks.length - 1 then L.startTimeInSeconds < d
          else L.startTimeInSeconds < stepSize) ∧
        l = offsetLine ((i : ℚ) * stepSize) L

/-- Claim C1 is false of the code: the reconciliation of variant 1
never consults a chunk's duration, and the final chunk keeps all of its
lines.  With one single (hence final) chunk of duration 80 containing a
line whose chunk-relative start is 100, the code keeps the line even
though its start is not inside the interval from 0 to the chunk
duration 80. -/
theorem c1_counterexample : ¬ ClaimC1 := by
  intro h
  have hline : (⟨"A", "x", "y", 100, 101⟩ : TranscriptLine) ∈
      (reconcileTiled 160
        ([((80 : ℚ), ⟨[⟨"A", "x", "y", 100, 101⟩], []⟩)].map Prod.snd)).transcript := by
    rw [mem_reconcileTiled_transcript]
    refine ⟨0, ⟨[⟨"A", "x", "y", 100, 101⟩], []⟩, rfl,
      ⟨"A", "x", "y", 100, 101⟩, by simp, by simp, ?_⟩
    simp [offsetLine]
  have h2 := (h 160 [((80 : ℚ), ⟨[⟨"A", "x", "y", 100, 101⟩], []⟩)]
    (by norm_num) ⟨"A", "x", "y", 100, 101⟩).mp hline
  obtain ⟨i, d, r, hir, L, hL, _, hcond, hoff⟩ := h2
  match i, hir with
  | 0, hir =>
    simp only [List.getElem?_cons_zero, Option.some_inj, Prod.mk.injEq] at hir
    obtain ⟨hd, hr⟩ := hir
    subst hd hr
    simp only [List.mem_singleton] at hL
    subst hL
    norm_num at hcond

/-- Amended claim C1: the code keeps, for each non-final chunk i,
exactly the lines whose chunk-relative start is below stepSeconds (with
no lower bound), and for the final chunk all of its lines regardless of
the chunk duration; every kept line is shifted by i * stepSeconds on
both timestamps, and nothing else is in the reconciled transcript. -/
theorem c1_tiled_ownership (stepSize : ℚ) (results : List TranscriptionResult)
    (l : TranscriptLine) :
    l ∈ (reconcileTiled stepSize results).transcript ↔
      ∃ i r, results[i]? = some r ∧ ∃ L ∈ r.transcript,
        (i = results.length - 1 ∨ L.startTimeInSeconds < stepSize) ∧
        l.speaker = L.speaker ∧ l.english = L.english ∧ l.chinese = L.chinese ∧
        l.startTimeInSeconds = (i : ℚ) * stepSize + L.startTimeInSeconds ∧
        l.endTimeInSeconds = (i : ℚ) * stepSize + L.endTimeInSeconds := by
  rw [mem_reconcileTiled_transcript]
  constructor
  · rintro ⟨i, r, hir, L, hL, hcond, rfl⟩
    exact ⟨i, r, hir, L, hL, hcond, rfl, rfl, rfl, rfl, rfl⟩
  · rintro ⟨i, r, hir, L, hL, hcond, h1, h2, h3, h4, h5⟩
    refine ⟨i, r, hir, L, hL, hcond, ?_⟩
    cases l
    cases L
    simp only [offsetLine] at *
    simp_all

theorem foldl_overlap_transcript (stepSize overlap : ℚ)
    (ps : List (ℕ × TranscriptionResult)) (acc : TranscriptionResult) :
    (ps.foldl (overlapChunkStep stepSize overlap) acc).transcript =
      acc.transcript ++ ps.flatMap (fun p =>
        (p.2.transcript.filter (fun l =>
          !(decide (0 < p.1) && decide (l.startTimeInSeconds < overlap)))).map
          (offsetLine ((p.1 : ℚ) * stepSize))) := by
  induction ps generalizing acc with
  | nil => simp
  | cons p ps ih => simp [overlapChunkStep, ih]

theorem reconcileOverlapDiscard_transcript (stepSize overlap : ℚ)
    (results : List TranscriptionResult) :
    (reconcileOverlapDiscard stepSize overlap results).transcript =
      results.enum.flatMap (fun p =>
        (p.2.transcript.filter (fun l =>
          !(decide (0 < p.1) && decide (l.startTimeInSeconds < overlap)))).map
          (offsetLine ((p.1 : ℚ) * stepSize))) := by
  simpa [reconcileOverlapDiscard, emptyResult] using
    foldl_overlap_transcript stepSize overlap results.enum emptyResult

/-- Claim C6: under the overlap-discard policy of variant 2, a line of
chunk i is in the reconciled transcript exactly when i is the first
chunk or its chunk-relative start is at least the overlap duration (the
lines of every later chunk that start below the overlap are discarded,
the first chunk keeps everything), and every retained line is emitted
with the chunk offset i * stepSeconds added to both timestamps. -/
theorem c6_overlap_discard (stepSize overlap : ℚ)
    (results : List TranscriptionResult) (l : TranscriptLine) :
    l ∈ (reconcileOverlapDiscard stepSize overlap results).transcript ↔
      ∃ (i : ℕ) (r : TranscriptionResult), results[i]? = some r ∧
        ∃ L ∈ r.transcript,
        (i = 0 ∨ overlap ≤ L.startTimeInSeconds) ∧
        l.speaker = L.speaker ∧ l.english = L.english ∧ l.chinese = L.chinese ∧
        l.startTimeInSeconds = (i : ℚ) * stepSize + L.startTimeInSeconds ∧
        l.endTimeInSeconds = (i : ℚ) * stepSize + L.endTimeInSeconds := by
  rw [reconcileOverlapDiscard_transcript]
  simp only [List.mem_flatMap, List.mem_map, List.mem_filter]
  constructor
  · rintro ⟨⟨i, r⟩, hmem, L, ⟨hL, hcond⟩, hoff⟩
    rw [List.mk_mem_enum_iff_getElem?] at hmem
    refine ⟨i, r, hmem, L, hL, ?_, ?_⟩
    · rcases Nat.eq_zero_or_pos i with hi | hi
      · exact Or.inl hi
      · right
        by_contra hlt
        push_neg at hlt
        simp [hi, hlt] at hcond
    · subst hoff
      exact ⟨rfl, rfl, rfl, rfl, rfl⟩
  · rintro ⟨i, r, hir, L, hL, hcond, h1, h2, h3, h4, h5⟩
    refine ⟨(i, r), List.mk_mem_enum_iff_getElem?.mpr hir, L, ⟨hL, ?_⟩, ?_⟩
    · rcases hcond with hi | hge
      · simp [hi]
      · simp [not_lt.mpr hge]
    · cases l
      cases L
      simp only [offsetLine] at *
      simp_all

/-! Lemmas about the accumulate-if-new folds. -/

theorem foldl_keepStep_append (pred : List α → α → Bool) (l : List α) :
    ∀ acc, ∃ rest, l.foldl (keepStep pred) acc = acc ++ rest ∧ rest.Sublist l := by
  induction l with
  | nil => exact fun acc => ⟨[], by simp⟩
  | cons x l ih =>
    intro acc
    by_cases h : pred acc x
    · obtain ⟨rest, heq, hsub⟩ := ih acc
      exact ⟨rest, by simp [keepStep, h, heq], hsub.cons x⟩
    · obtain ⟨rest, heq, hsub⟩ := ih (acc ++ [x])
      refine ⟨x :: rest, ?_, hsub.cons₂ x⟩
      simp [keepStep, h, heq]

theorem keepStep_pos (pred : List α → α → Bool) (acc : List α) (x : α)
    (h : pred acc x = true) : keepStep pred acc x = acc := by
  simp [keepStep, h]

theorem keepStep_neg (pred : List α → α → Bool) (acc : List α) (x : α)
    (h : pred acc x = false) : keepStep pred acc x = acc ++ [x] := by
  simp [keepStep, h]

/-- Case-insensitive distinctness of two vocabulary entries. -/
def wordDistinct (a b : VocabularyItem) : Prop :=
  a.word.toLower ≠ b.word.toLower

theorem vocabFold_spec (l : List VocabularyItem) :
    ∀ acc, List.Pairwise wordDistinct acc →
      (∃ rest, l.foldl vocabStep acc = acc ++ rest ∧ rest.Sublist l) ∧
      List.Pairwise wordDistinct (l.foldl vocabStep acc) ∧
      (∀ item ∈ l, ∃ v ∈ l.foldl vocabStep acc,
        v.word.toLower = item.word.toLower) ∧
      (∀ v ∈ l.foldl vocabStep acc, v ∉ acc →
        l.find? (fun x => x.word.toLower == v.word.toLower) = some v) := by
  induction l with
  | nil =>
    intro acc hacc
    exact ⟨⟨[], by simp, List.Sublist.refl _⟩, by simpa using hacc,
      by simp, by simp⟩
  | cons item l ih =>
    intro acc hacc
    by_cases h : acc.any (fun v => wordMatches v item)
    · -- a case-insensitively equal word is already collected: item dropped
      obtain ⟨a, ha, hmatch⟩ := List.any_eq_true.mp h
      rw [wordMatches, beq_iff_eq] at hmatch
      have hstep : List.foldl vocabStep acc (item :: l) =
          List.foldl vocabStep acc l := by
        simp [vocabStep, keepStep, h]
      obtain ⟨⟨rest, heq, hsub⟩, hpair, hcover, hfirst⟩ := ih acc hacc
      rw [hstep]
      refine ⟨⟨rest, heq, hsub.cons item⟩, hpair, ?_, ?_⟩
      · intro x hx
        rcases List.mem_cons.mp hx with rfl | hx
        · exact ⟨a, by simp [heq, ha], hmatch⟩
        · exact hcover x hx
      · intro v hv hvacc
        have hvnea : v ≠ a := by
          rintro rfl
          exact hvacc ha
        have hamem : a ∈ List.foldl vocabStep acc l := by
          simp [heq, ha]
        have hdist : wordDistinct a v :=
          List.Pairwise.forall (fun x y hxy => hxy.symm) hpair hamem hv hvnea.symm
        have hne : (item.word.toLower == v.word.toLower) = false := by
          rw [beq_eq_false_iff_ne, ← hmatch]
          exact hdist
        simp only [List.find?, hne]
        exact hfirst v hv hvacc
    · -- new word: item appended, recurse with the extended accumulator
      have hacc2 : List.Pairwise wordDistinct (acc ++ [item]) := by
        rw [List.pairwise_append]
        refine ⟨hacc, by simp, ?_⟩
        intro a ha b hb
        rcases List.mem_singleton.mp hb with rfl
        intro hcontra
        exact h (List.any_eq_true.mpr ⟨a, ha, by simp [wordMatches, hcontra]⟩)
      have hstep : List.foldl vocabStep acc (item :: l) =
          List.foldl vocabStep (acc ++ [item]) l := by
        simp [vocabStep, keepStep, h]
      obtain ⟨⟨rest, heq, hsub⟩, hpair, hcover, hfirst⟩ := ih (acc ++ [item]) hacc2
      rw [hstep]
      have heq2 : List.foldl vocabStep (acc ++ [item]) l = acc ++ item :: rest := by
        rw [heq, List.append_assoc]
        rfl
      refine ⟨⟨item :: rest, heq2, hsub.cons₂ item⟩, hpair, ?_, ?_⟩
      · intro x hx
        rcases List.mem_cons.mp hx with rfl | hx
        · exact ⟨x, by simp [heq2], rfl⟩
        · exact hcover x hx
      · intro v hv hvacc
        by_cases hvitem : v = item
        · subst hvitem
          have hself : (v.word.toLower == v.word.toLower) = true := by simp
          simp only [List.find?, hself]
        · have hvacc2 : v ∉ acc ++ [item] := by
            simp only [List.mem_append, List.mem_singleton]
            rintro (hva | rfl)
            · exact hvacc hva
            · exact hvitem rfl
          have hitemmem : item ∈ List.foldl vocabStep (acc ++ [item]) l := by
            simp [heq2]
          have hdist : wordDistinct item v :=
            List.Pairwise.forall (fun x y hxy => hxy.symm) hpair hitemmem hv
              (fun hcontra => hvitem hcontra.symm)
          have hne : (item.word.toLower == v.word.toLower) = false :=
            beq_eq_false_iff_ne.mpr hdist
          simp only [List.find?, hne]
          exact hfirst v hv hvacc2

theorem foldl_tiled_vocabulary (stepSize : ℚ) (lastIndex : ℕ)
    (ps : List (ℕ × TranscriptionResult)) (acc : TranscriptionResult) :
    (ps.foldl (tiledChunkStep stepSize lastIndex) acc).vocabulary =
      ((ps.map (fun p => p.2.vocabulary)).flatten).foldl vocabStep
        acc.vocabulary := by
  induction ps generalizing acc with
  | nil => simp
  | cons p ps ih =>
    simp only [List.foldl_cons, List.map_cons, List.flatten_cons,
      List.foldl_append]
    rw [ih]
    rfl

theorem reconcileTiled_vocabulary (stepSize : ℚ)
    (results : List TranscriptionResult) :
    (reconcileTiled stepSize results).vocabulary =
      ((results.map (fun r => r.vocabulary)).flatten).foldl vocabStep [] := by
  have h := foldl_tiled_vocabulary stepSize (results.length - 1)
    results.enum emptyResult
  have h2 : List.map (fun p : ℕ × TranscriptionResult => p.2.vocabulary)
      results.enum = List.map (fun r => r.vocabulary) results := by
    conv_rhs => rw [← List.enum_map_snd results]
    rw [List.map_map]
    rfl
  rw [reconcileTiled, h, h2]
  rfl

/-- Claim C8: merging every chunk's vocabulary in chunk-index order
(variant 1, geminiService.ts lines 254-260) produces a list that is a
subsequence of the concatenated input vocabularies (so first-appearance
order is preserved), contains no two entries with case-insensitively
equal words, covers every input word case-insensitively, and in which
every entry is literally the first occurrence of its word in the
concatenated input, carrying that occurrence's ipa, definition and
example fields; the merge is a pure function of the ordered chunk
results, hence deterministic. -/
theorem c8_vocabulary_merge (stepSize : ℚ)
    (results : List TranscriptionResult) :
    ((reconcileTiled stepSize results).vocabulary).Sublist
        ((results.map (fun r => r.vocabulary)).flatten) ∧
      List.Pairwise wordDistinct (reconcileTiled stepSize results).vocabulary ∧
      (∀ item ∈ (results.map (fun r => r.vocabulary)).flatten,
        ∃ v ∈ (reconcileTiled stepSize results).vocabulary,
          v.word.toLower = item.word.toLower) ∧
      (∀ v ∈ (reconcileTiled stepSize results).vocabulary,
        ((results.map (fun r => r.vocabulary)).flatten).find?
          (fun x => x.word.toLower == v.word.toLower) = some v) := by
  have h := vocabFold_spec ((results.map (fun r => r.vocabulary)).flatten)
    [] (List.Pairwise.nil)
  rw [reconcileTiled_vocabulary]
  obtain ⟨⟨rest, heq, hsub⟩, hpair, hcover, hfirst⟩ := h
  refine ⟨?_, hpair, hcover, ?_⟩
  · rw [heq]
    simpa using hsub
  · intro v hv
    exact hfirst v hv (List.not_mem_nil v)

/-- Concrete pair of chunk results with a case-insensitive duplicate
word across the chunks, used to instantiate claim C8. -/
def vocabDemoResults : List TranscriptionResult :=
  [⟨[], [⟨"Hello", "i1", "d1", "e1"⟩]⟩,
    ⟨[], [⟨"HELLO", "i2", "d2", "e2"⟩, ⟨"world", "i3", "d3", "e3"⟩]⟩]

/-- Closed instance of claim C8 at a concrete pair of chunk results
with a case-insensitive duplicate across the chunks. -/
theorem c8_witness :
    ((reconcileTiled 160 vocabDemoResults).vocabulary).Sublist
        ((vocabDemoResults.map (fun r => r.vocabulary)).flatten) ∧
      List.Pairwise wordDistinct
        (reconcileTiled 160 vocabDemoResults).vocabulary ∧
      (∀ item ∈ (vocabDemoResults.map (fun r => r.vocabulary)).flatten,
        ∃ v ∈ (reconcileTiled 160 vocabDemoResults).vocabulary,
          v.word.toLower = item.word.toLower) ∧
      (∀ v ∈ (reconcileTiled 160 vocabDemoResults).vocabulary,
        ((vocabDemoResults.map (fun r => r.vocabulary)).flatten).find?
          (fun x => x.word.toLower == v.word.toLower) = some v) :=
  c8_vocabulary_merge 160 vocabDemoResults

theorem filter_orderedInsert (q : ℚ) (x : TranscriptLine)
    (s : List TranscriptLine) :
    (List.orderedInsert startLE x s).filter
        (fun a => decide (a.startTimeInSeconds = q)) =
      if x.startTimeInSeconds = q
      then x :: s.filter (fun a => decide (a.startTimeInSeconds = q))
      else s.filter (fun a => decide (a.startTimeInSeconds = q)) := by
  induction s with
  | nil =>
    by_cases hx : x.startTimeInSeconds = q
    · simp [List.orderedInsert, hx]
    · simp [List.orderedInsert, hx]
  | cons b l ih =>
    by_cases hle : startLE x b
    · by_cases hx : x.startTimeInSeconds = q
      · simp [List.orderedInsert, hle, hx]
      · simp [List.orderedInsert, hle, hx]
    · have hblt : b.startTimeInSeconds < x.startTimeInSeconds := by
        rw [startLE] at hle
        exact lt_of_not_le hle
      by_cases hx : x.startTimeInSeconds = q
      · have hb : ¬ b.startTimeInSeconds = q := by
          rw [← hx]
          exact ne_of_lt hblt
        simp [List.orderedInsert, hle, hx, hb, ih]
      · by_cases hb : b.startTimeInSeconds = q
        · simp [List.orderedInsert, hle, hx, hb, ih]
        · simp [List.orderedInsert, hle, hx, hb, ih]

theorem filter_sortByStart (q : ℚ) (ls : List TranscriptLine) :
    (sortByStart ls).filter (fun a => decide (a.startTimeInSeconds = q)) =
      ls.filter (fun a => decide (a.startTimeInSeconds = q)) := by
  induction ls with
  | nil => rfl
  | cons x ls ih =>
    rw [sortByStart, List.insertionSort]
    rw [show List.insertionSort startLE ls = sortByStart ls from rfl] at *
    rw [filter_orderedInsert]
    by_cases hx : x.startTimeInSeconds = q
    · simp [hx, ih]
    · simp [hx, ih]

/-- Claim C9: the final transcript of the variant 1 pipeline is the
stable sort of the reconciled line list by startTimeInSeconds: it is
sorted ascending, it is a permutation of the reconciled list, and for
every start value the lines carrying that value appear in exactly their
original append order (the filter at any start time is unchanged by the
sort).  JavaScript Array.prototype.sort is specified to be stable, and a
stable sort with respect to this total preorder is unique, so insertion
sort is an exact model of the sort on line 263. -/
theorem c9_sorted_stable (stepSize : ℚ) (results : List TranscriptionResult) :
    (processAudioTiled stepSize results).transcript =
        sortByStart (reconcileTiled stepSize results).transcript ∧
      List.Sorted startLE (processAudioTiled stepSize results).transcript ∧
      ((processAudioTiled stepSize results).transcript).Perm
        (reconcileTiled stepSize results).transcript ∧
      ∀ q : ℚ, ((processAudioTiled stepSize results).transcript).filter
          (fun a => decide (a.startTimeInSeconds = q)) =
        ((reconcileTiled stepSize results).transcript).filter
          (fun a => decide (a.startTimeInSeconds = q)) := by
  refine ⟨rfl, ?_, ?_, ?_⟩
  · exact List.sorted_insertionSort startLE _
  · exact List.perm_insertionSort startLE _
  · intro q
    exact filter_sortByStart q _

/-- Near-boundary line reported by the earlier chunk in the fuzzy-dedup
scenario of the spec: global start 159.9 seconds. -/
def fuzzyLineA : TranscriptLine :=
  ⟨"S1", "Hello world mate", "c1", 1599 / 10, 1601 / 10⟩

/-- Same utterance reported by the later chunk in the fuzzy-dedup
scenario: global start 160.05 seconds, matching first characters up to
case. -/
def fuzzyLineB : TranscriptLine :=
  ⟨"S2", "HELLO world mateys", "c2", 3201 / 20, 3211 / 20⟩

/-- Claim C7: under the fuzzy-dedup policy of variants 3 and 4, a
candidate line is dropped exactly when some already accepted line has a
start within epsilon and case-insensitively equal first K characters of
the English text; when a duplicate is detected the later-arriving line
is the one dropped (the accepted list is unchanged), otherwise the line
is appended.  Two chunks reporting the same utterance at starts 159.9
and 160.05 with matching prefixes contribute exactly one output line,
both with the variant 3 parameters (epsilon 0.2, K 10) and with the
variant 4 parameters (epsilon 0.3, K 15). -/
theorem c7_fuzzy_dedup (eps : ℚ) (k : ℕ) (pre post : List TranscriptLine)
    (x : TranscriptLine) :
    (((dedupFuzzy eps k pre).any (fun e => similarLine eps k e x) = true →
        dedupFuzzy eps k (pre ++ x :: post) = dedupFuzzy eps k (pre ++ post)) ∧
      ((dedupFuzzy eps k pre).any (fun e => similarLine eps k e x) = false →
        ∃ rest, dedupFuzzy eps k (pre ++ x :: post) =
            dedupFuzzy eps k pre ++ x :: rest ∧ rest.Sublist post)) ∧
      reconcileFuzzy (1 / 5) 10 [⟨[fuzzyLineA], []⟩, ⟨[fuzzyLineB], []⟩] =
        ⟨[fuzzyLineA], []⟩ ∧
      reconcileFuzzy (3 / 10) 15 [⟨[fuzzyLineA], []⟩, ⟨[fuzzyLineB], []⟩] =
        ⟨[fuzzyLineA], []⟩ := by
  refine ⟨⟨?_, ?_⟩, ?_, ?_⟩
  · intro h
    rw [dedupFuzzy] at h
    have hstep : fuzzyStep eps k (List.foldl (fuzzyStep eps k) [] pre) x =
        List.foldl (fuzzyStep eps k) [] pre :=
      keepStep_pos _ _ _ h
    show List.foldl (fuzzyStep eps k) [] (pre ++ x :: post) =
      List.foldl (fuzzyStep eps k) [] (pre ++ post)
    rw [List.foldl_append, List.foldl_append, List.foldl_cons, hstep]
  · intro h
    rw [dedupFuzzy] at h
    have hstep : fuzzyStep eps k (List.foldl (fuzzyStep eps k) [] pre) x =
        List.foldl (fuzzyStep eps k) [] pre ++ [x] :=
      keepStep_neg _ _ _ h
    obtain ⟨rest, heq, hsub⟩ :=
      foldl_keepStep_append
        (fun acc l => acc.any (fun e => similarLine eps k e l)) post
        (List.foldl (fuzzyStep eps k) [] pre ++ [x])
    refine ⟨rest, ?_, hsub⟩
    show List.foldl (fuzzyStep eps k) [] (pre ++ x :: post) =
      List.foldl (fuzzyStep eps k) [] pre ++ x :: rest
    rw [List.foldl_append, List.foldl_cons, hstep]
    rw [show List.foldl (fuzzyStep eps k)
        (List.foldl (fuzzyStep eps k) [] pre ++ [x]) post =
        (List.foldl (fuzzyStep eps k) [] pre ++ [x]) ++ rest from heq]
    simp
  · simp [reconcileFuzzy, fuzzyStep, keepStep, similarLine, fuzzyLineA,
      fuzzyLineB, emptyResult, appendVocab]
    norm_num [abs]
    decide
  · simp [reconcileFuzzy, fuzzyStep, keepStep, similarLine, fuzzyLineA,
      fuzzyLineB, emptyResult, appendVocab]
    norm_num [abs]
    decide

/-- Closed instance of claim C7: the later-arriving near-duplicate line
is dropped by the fuzzy dedup at the concrete scenario input. -/
theorem c7_witness :
    dedupFuzzy (1 / 5) 10 ([fuzzyLineA] ++ fuzzyLineB :: []) =
      dedupFuzzy (1 / 5) 10 ([fuzzyLineA] ++ []) :=
  ((c7_fuzzy_dedup (1 / 5) 10 [fuzzyLineA] [] fuzzyLineB).1.1
    (by
      simp [dedupFuzzy, fuzzyStep, keepStep, similarLine, fuzzyLineA,
        fuzzyLineB]
      norm_num [abs]
      decide))

theorem foldl_overlap_vocabulary (stepSize overlap : ℚ)
    (ps : List (ℕ × TranscriptionResult)) (acc : TranscriptionResult) :
    (ps.foldl (overlapChunkStep stepSize overlap) acc).vocabulary =
      ((ps.map (fun p => p.2.vocabulary)).flatten).foldl vocabStep
        acc.vocabulary := by
  induction ps generalizing acc with
  | nil => simp
  | cons p ps ih =>
    simp only [List.foldl_cons, List.map_cons, List.flatten_cons,
      List.foldl_append]
    rw [ih]
    rfl

theorem reconcileOverlapDiscard_vocabulary (stepSize overlap : ℚ)
    (results : List TranscriptionResult) :
    (reconcileOverlapDiscard stepSize overlap results).vocabulary =
      ((results.map (fun r => r.vocabulary)).flatten).foldl vocabStep [] := by
  have h := foldl_overlap_vocabulary stepSize overlap results.enum emptyResult
  have h2 : List.map (fun p : ℕ × TranscriptionResult => p.2.vocabulary)
      results.enum = List.map (fun r => r.vocabulary) results := by
    conv_rhs => rw [← List.enum_map_snd results]
    rw [List.map_map]
    rfl
  rw [reconcileOverlapDiscard, h, h2]
  rfl

theorem vocab_mem_of_merged (out : List VocabularyItem)
    (results : List TranscriptionResult)
    (hout : out = ((results.map (fun r => r.vocabulary)).flatten).foldl
      vocabStep []) :
    ∀ v ∈ out, ∃ (i : ℕ) (r : TranscriptionResult),
      results[i]? = some r ∧ v ∈ r.vocabulary := by
  intro v hv
  obtain ⟨rest, heq, hsub⟩ :=
    foldl_keepStep_append (fun vs item => vs.any (fun w => wordMatches w item))
      ((results.map (fun r => r.vocabulary)).flatten) []
  rw [hout] at hv
  rw [show ((results.map (fun r => r.vocabulary)).flatten).foldl vocabStep [] =
      [] ++ rest from heq] at hv
  simp only [List.nil_append] at hv
  have hvflat : v ∈ (results.map (fun r => r.vocabulary)).flatten :=
    hsub.mem hv
  rw [List.mem_flatten] at hvflat
  obtain ⟨vs, hvs, hvin⟩ := hvflat
  rw [List.mem_map] at hvs
  obtain ⟨r, hr, rfl⟩ := hvs
  obtain ⟨i, hi, hgot⟩ := List.mem_iff_getElem.mp hr
  exact ⟨i, r, by rw [List.getElem?_eq_getElem hi, hgot], hvin⟩

/-- Amended claim C10: every line of the final transcript of either
pipeline arises from at least one input chunk line with identical
speaker, english and chinese fields, the reconciler changing only the
two timestamps by adding the chunk offset; every vocabulary entry of
the final result is literally one of the input chunks' entries, all
four fields unchanged.  (Uniqueness of the source line can fail when
distinct input lines share the same text, hence at-least-one.) -/
theorem c10_frame_effect (stepSize overlap : ℚ)
    (results : List TranscriptionResult) :
    (∀ l ∈ (processAudioTiled stepSize results).transcript,
      ∃ (i : ℕ) (r : TranscriptionResult) (L : TranscriptLine),
        results[i]? = some r ∧ L ∈ r.transcript ∧
        l.speaker = L.speaker ∧ l.english = L.english ∧ l.chinese = L.chinese ∧
        l.startTimeInSeconds = (i : ℚ) * stepSize + L.startTimeInSeconds ∧
        l.endTimeInSeconds = (i : ℚ) * stepSize + L.endTimeInSeconds) ∧
      (∀ v ∈ (processAudioTiled stepSize results).vocabulary,
        ∃ (i : ℕ) (r : TranscriptionResult),
          results[i]? = some r ∧ v ∈ r.vocabulary) ∧
      (∀ l ∈ (processAudioOverlapDiscard stepSize overlap results).transcript,
        ∃ (i : ℕ) (r : TranscriptionResult) (L : TranscriptLine),
          results[i]? = some r ∧ L ∈ r.transcript ∧
          l.speaker = L.speaker ∧ l.english = L.english ∧
          l.chinese = L.chinese ∧
          l.startTimeInSeconds = (i : ℚ) * stepSize + L.startTimeInSeconds ∧
          l.endTimeInSeconds = (i : ℚ) * stepSize + L.endTimeInSeconds) ∧
      (∀ v ∈ (processAudioOverlapDiscard stepSize overlap results).vocabulary,
        ∃ (i : ℕ) (r : TranscriptionResult),
          results[i]? = some r ∧ v ∈ r.vocabulary) := by
  refine ⟨?_, ?_, ?_, ?_⟩
  · intro l hl
    have hl2 : l ∈ (reconcileTiled stepSize results).transcript :=
      ((List.perm_insertionSort startLE _).mem_iff).mp hl
    obtain ⟨i, r, hir, L, hL, _, rfl⟩ :=
      (mem_reconcileTiled_transcript stepSize results l).mp hl2
    exact ⟨i, r, L, hir, hL, rfl, rfl, rfl, rfl, rfl⟩
  · intro v hv
    exact vocab_mem_of_merged _ results
      (reconcileTiled_vocabulary stepSize results) v hv
  · intro l hl
    have hl2 : l ∈ (reconcileOverlapDiscard stepSize overlap
        results).transcript :=
      ((List.perm_insertionSort startLE _).mem_iff).mp hl
    rw [reconcileOverlapDiscard_transcript] at hl2
    simp only [List.mem_flatMap, List.mem_map, List.mem_filter] at hl2
    obtain ⟨⟨i, r⟩, hmem, L, ⟨hL, _⟩, hoff⟩ := hl2
    rw [List.mk_mem_enum_iff_getElem?] at hmem
    subst hoff
    exact ⟨i, r, L, hmem, hL, rfl, rfl, rfl, rfl, rfl⟩
  · intro v hv
    exact vocab_mem_of_merged _ results
      (reconcileOverlapDiscard_vocabulary stepSize overlap results) v hv

/-- Statement of claim C10 exactly as written: every final transcript
line has EXACTLY ONE input chunk line with identical speaker, english
and chinese fields. -/
def ClaimC10 : Prop :=
  ∀ (stepSize : ℚ) (results : List TranscriptionResult),
    ∀ l ∈ (processAudioTiled stepSize results).transcript,
      ∃! L : TranscriptLine,
        (∃ (i : ℕ) (r : TranscriptionResult),
          results[i]? = some r ∧ L ∈ r.transcript) ∧
        l.speaker = L.speaker ∧ l.english = L.english ∧ l.chinese = L.chinese

/-- Claim C10 is false as stated: when one chunk contains two distinct
lines with the same speaker, english and chinese text (at different
times), a final line matching that text has two distinct source lines,
so the input chunk line with identical text fields is not unique. -/
theorem c10_counterexample : ¬ ClaimC10 := by
  intro h
  have hmem : offsetLine 0 ⟨"A", "hi", "zh", 0, 1⟩ ∈
      (processAudioTiled 160
        [⟨[⟨"A", "hi", "zh", 0, 1⟩, ⟨"A", "hi", "zh", 5, 6⟩], []⟩]).transcript := by
    apply ((List.perm_insertionSort startLE _).mem_iff).mpr
    rw [mem_reconcileTiled_transcript]
    refine ⟨0, ⟨[⟨"A", "hi", "zh", 0, 1⟩, ⟨"A", "hi", "zh", 5, 6⟩], []⟩, rfl,
      ⟨"A", "hi", "zh", 0, 1⟩, by simp, Or.inl rfl, by simp [offsetLine]⟩
  obtain ⟨L, _, huniq⟩ := h 160
    [⟨[⟨"A", "hi", "zh", 0, 1⟩, ⟨"A", "hi", "zh", 5, 6⟩], []⟩]
    (offsetLine 0 ⟨"A", "hi", "zh", 0, 1⟩) hmem
  have h1 : (⟨"A", "hi", "zh", 0, 1⟩ : TranscriptLine) = L :=
    huniq ⟨"A", "hi", "zh", 0, 1⟩
      ⟨⟨0, ⟨[⟨"A", "hi", "zh", 0, 1⟩, ⟨"A", "hi", "zh", 5, 6⟩], []⟩,
        rfl, by simp⟩, rfl, rfl, rfl⟩
  have h2 : (⟨"A", "hi", "zh", 5, 6⟩ : TranscriptLine) = L :=
    huniq ⟨"A", "hi", "zh", 5, 6⟩
      ⟨⟨0, ⟨[⟨"A", "hi", "zh", 0, 1⟩, ⟨"A", "hi", "zh", 5, 6⟩], []⟩,
        rfl, by simp⟩, rfl, rfl, rfl⟩
  have h3 := h1.trans h2.symm
  simp at h3

/-! Characterization of the AudioSegmenter loop. -/

/-- Number of windows the loop emits from a given start offset. -/
def tileCount (window stepSize total start : ℚ) : ℕ :=
  max 1 (⌈(total - start - window + stepSize) / stepSize⌉.toNat)

theorem tileCount_base (window stepSize total start : ℚ)
    (hstep : 0 < stepSize) (h : total ≤ start + window) :
    tileCount window stepSize total start = 1 := by
  have h1 : (total - start - window + stepSize) / stepSize ≤ 1 := by
    rw [div_le_one hstep]
    linarith
  have h2 : ⌈(total - start - window + stepSize) / stepSize⌉ ≤ 1 :=
    Int.ceil_le.mpr (by exact_mod_cast h1)
  rw [tileCount]
  omega

theorem tileCount_succ (window stepSize total start : ℚ)
    (hstep : 0 < stepSize) (h : start + window < total) :
    tileCount window stepSize total start =
      tileCount window stepSize total (start + stepSize) + 1 := by
  have hx : (1 : ℚ) < (total - start - window + stepSize) / stepSize := by
    rw [lt_div_iff hstep]
    linarith
  have hx2 : (1 : ℤ) < ⌈(total - start - window + stepSize) / stepSize⌉ :=
    Int.lt_ceil.mpr (by exact_mod_cast hx)
  have hx3 : (total - (start + stepSize) - window + stepSize) / stepSize =
      (total - start - window + stepSize) / stepSize - 1 := by
    field_simp
    ring
  rw [tileCount, tileCount, hx3, Int.ceil_sub_one]
  omega

theorem segmentFrom_eq (window stepSize total : ℚ) (hstep : 0 < stepSize)
    (hws : stepSize ≤ window) (start : ℚ) (hlt : start < total) :
    segmentFrom window stepSize total hstep start =
      (List.range (tileCount window stepSize total start)).map
        (fun j : ℕ => (start + (j : ℚ) * stepSize,
          min (start + (j : ℚ) * stepSize + window) total)) := by
  rw [segmentFrom, dif_pos hlt]
  by_cases hend : total ≤ min (start + window) total
  · rw [if_pos hend]
    have hba : total ≤ start + window := by
      rcases le_min_iff.mp hend with ⟨h1, _⟩
      exact h1
    rw [tileCount_base window stepSize total start hstep hba]
    rw [show List.range 1 = [0] from rfl]
    simp only [List.map_cons, List.map_nil]
    norm_num
  · rw [if_neg hend]
    have hwin : start + window < total := by
      by_contra hc
      push_neg at hc
      exact hend (le_min_iff.mpr ⟨hc, le_refl total⟩)
    have hlt2 : start + stepSize < total := by linarith
    rw [segmentFrom_eq window stepSize total hstep hws (start + stepSize) hlt2]
    rw [tileCount_succ window stepSize total start hstep hwin,
      List.range_succ_eq_map, List.map_cons, List.map_map]
    congr 1
    · norm_num
    · apply List.map_congr_left
      intro j _
      simp only [Function.comp_apply]
      refine Prod.ext ?_ ?_
      · push_cast
        ring
      · congr 1
        push_cast
        ring
termination_by (⌈(total - start) / stepSize⌉).toNat
decreasing_by
  have h1 : (0 : ℚ) < (total - start) / stepSize := by
    apply div_pos _ hstep
    linarith
  have h2 : (1 : ℤ) ≤ ⌈(total - start) / stepSize⌉ := by
    exact_mod_cast Int.ceil_pos.mpr h1
  have h3 : ⌈(total - (start + stepSize)) / stepSize⌉ =
      ⌈(total - start) / stepSize⌉ - 1 := by
    have h4 : (total - (start + stepSize)) / stepSize =
        (total - start) / stepSize - 1 := by
      field_simp
      ring
    rw [h4, Int.ceil_sub_one]
  omega

theorem segmentWindows_eq (total window overlap : ℚ) (h0 : 0 < total)
    (hov : 0 ≤ overlap) (hlt : overlap < window)
    (hstep : 0 < window - overlap) :
    segmentWindows window (window - overlap) total hstep =
      (List.range (max 1 (⌈(total - overlap) / (window - overlap)⌉.toNat))).map
        (fun j : ℕ => ((j : ℚ) * (window - overlap),
          min ((j : ℚ) * (window - overlap) + window) total)) := by
  have hws : window - overlap ≤ window := by linarith
  have heq := segmentFrom_eq window (window - overlap) total hstep hws 0 h0
  have hcount : tileCount window (window - overlap) total 0 =
      max 1 (⌈(total - overlap) / (window - overlap)⌉.toNat) := by
    rw [tileCount]
    have : total - 0 - window + (window - overlap) = total - overlap := by ring
    rw [this]
  rw [segmentWindows, heq, hcount]
  apply List.map_congr_left
  intro j _
  norm_num

/-- Amended claim C2: for every totalDurationSeconds > 0 and valid
configuration (0 <= overlapSeconds < windowSeconds, stepSeconds =
windowSeconds - overlapSeconds), the segmenter emits windows starting at
0, stepSeconds, 2*stepSeconds, ..., each covering the interval from its
start to min (start + windowSeconds) totalDuration; every window except
possibly the final one has length windowSeconds; the union of the
windows is exactly the interval from 0 to totalDuration with no gaps;
and the number of emitted windows is
max 1 (ceil ((totalDuration - overlap) / step)) — the claim's plain
ceiling formula is off by one when totalDuration <= overlapSeconds,
where the loop still emits one window. -/
theorem c2_segmentation (total window overlap : ℚ) (h0 : 0 < total)
    (hov : 0 ≤ overlap) (hlt : overlap < window)
    (hstep : 0 < window - overlap) :
    (segmentWindows window (window - overlap) total hstep).length =
        max 1 (⌈(total - overlap) / (window - overlap)⌉.toNat) ∧
      (∀ j : ℕ, j < (segmentWindows window (window - overlap) total
          hstep).length →
        (segmentWindows window (window - overlap) total hstep)[j]? =
          some ((j : ℚ) * (window - overlap),
            min ((j : ℚ) * (window - overlap) + window) total)) ∧
      (∀ j : ℕ, j + 1 < (segmentWindows window (window - overlap) total
          hstep).length →
        (segmentWindows window (window - overlap) total hstep)[j]? =
          some ((j : ℚ) * (window - overlap),
            (j : ℚ) * (window - overlap) + window)) ∧
      (∀ x : ℚ, 0 ≤ x → x < total →
        ∃ w ∈ segmentWindows window (window - overlap) total hstep,
          w.1 ≤ x ∧ x < w.2) ∧
      (∀ w ∈ segmentWindows window (window - overlap) total hstep,
        0 ≤ w.1 ∧ w.1 < w.2 ∧ w.2 ≤ total) := by
  have hw0 : (0 : ℚ) < window := lt_of_le_of_lt hov hlt
  have hrw := segmentWindows_eq total window overlap h0 hov hlt hstep
  have hlen : (segmentWindows window (window - overlap) total hstep).length =
      max 1 (⌈(total - overlap) / (window - overlap)⌉.toNat) := by
    rw [hrw, List.length_map, List.length_range]
  have hidx : ∀ j : ℕ, j < (segmentWindows window (window - overlap) total
      hstep).length →
      (segmentWindows window (window - overlap) total hstep)[j]? =
        some ((j : ℚ) * (window - overlap),
          min ((j : ℚ) * (window - overlap) + window) total) := by
    intro j hj
    rw [hlen] at hj
    rw [hrw, List.getElem?_map, List.getElem?_range hj]
    rfl
  have hndiv : ((max 1 (⌈(total - overlap) / (window - overlap)⌉.toNat) :
      ℕ) : ℚ) ≥ (total - overlap) / (window - overlap) := by
    have hZ : (⌈(total - overlap) / (window - overlap)⌉ : ℤ) ≤
        ((max 1 (⌈(total - overlap) / (window - overlap)⌉.toNat) : ℕ) : ℤ) := by
      omega
    calc (total - overlap) / (window - overlap) ≤
        ((⌈(total - overlap) / (window - overlap)⌉ : ℤ) : ℚ) := Int.le_ceil _
      _ ≤ _ := by exact_mod_cast hZ
  have hceil_le : total - overlap ≤
      ((max 1 (⌈(total - overlap) / (window - overlap)⌉.toNat) : ℕ) : ℚ) *
        (window - overlap) := by
    calc total - overlap =
        ((total - overlap) / (window - overlap)) * (window - overlap) := by
          field_simp
      _ ≤ _ := mul_le_mul_of_nonneg_right hndiv (le_of_lt hstep)
  refine ⟨hlen, hidx, ?_, ?_, ?_⟩
  · -- every non-final window has full length: its end does not hit total
    intro j hj
    rw [hlen] at hj
    have hfull : (j : ℚ) * (window - overlap) + window < total := by
      have h2 : ((j : ℕ) : ℤ) + 1 <
          ⌈(total - overlap) / (window - overlap)⌉ := by omega
      have h3 : ((j : ℚ) + 1) < (total - overlap) / (window - overlap) := by
        have := Int.lt_ceil.mp h2
        exact_mod_cast this
      have h4 : ((j : ℚ) + 1) * (window - overlap) < total - overlap := by
        calc ((j : ℚ) + 1) * (window - overlap) <
            ((total - overlap) / (window - overlap)) * (window - overlap) :=
              mul_lt_mul_of_pos_right h3 hstep
          _ = total - overlap := by field_simp
      nlinarith
    have := hidx j (by omega)
    rw [this, min_eq_left (le_of_lt hfull)]
  · -- coverage of the interval from 0 to total
    intro x hx0 hxt
    have hn1 : 1 ≤ (segmentWindows window (window - overlap) total
        hstep).length := by
      rw [hlen]
      omega
    have hfl0 : (0 : ℤ) ≤ ⌊x / (window - overlap)⌋ :=
      Int.floor_nonneg.mpr (div_nonneg hx0 (le_of_lt hstep))
    obtain ⟨j, hjdef⟩ : ∃ j : ℕ, j = min (⌊x / (window - overlap)⌋).toNat
        ((segmentWindows window (window - overlap) total hstep).length - 1) :=
      ⟨_, rfl⟩
    have hjlt : j < (segmentWindows window (window - overlap) total
        hstep).length := by
      omega
    have hw := hidx j hjlt
    refine ⟨((j : ℚ) * (window - overlap),
      min ((j : ℚ) * (window - overlap) + window) total), ?_, ?_, ?_⟩
    · rw [List.mem_iff_getElem?]
      exact ⟨j, hw⟩
    · -- the window starts at or before x
      have h6 : ((j : ℕ) : ℤ) ≤ ⌊x / (window - overlap)⌋ := by omega
      have h5 : ((j : ℕ) : ℚ) ≤ x / (window - overlap) :=
        le_trans (by exact_mod_cast h6) (Int.floor_le _)
      calc ((j : ℕ) : ℚ) * (window - overlap) ≤
          (x / (window - overlap)) * (window - overlap) :=
            mul_le_mul_of_nonneg_right h5 (le_of_lt hstep)
        _ = x := by field_simp
    · -- x lies strictly before the window end
      rw [lt_min_iff]
      refine ⟨?_, hxt⟩
      rcases Nat.lt_or_ge (⌊x / (window - overlap)⌋).toNat
        ((segmentWindows window (window - overlap) total hstep).length)
        with hcase | hcase
      · -- the floor index itself is used
        have hjeq : j = (⌊x / (window - overlap)⌋).toNat := by omega
        have h7 : x / (window - overlap) <
            ((⌊x / (window - overlap)⌋ : ℤ) : ℚ) + 1 :=
          Int.lt_floor_add_one _
        have h8 : ((⌊x / (window - overlap)⌋ : ℤ) : ℚ) = ((j : ℕ) : ℚ) := by
          rw [hjeq]
          exact_mod_cast (Int.toNat_of_nonneg hfl0).symm
        have hxlt : x < ((j : ℕ) : ℚ) * (window - overlap) +
            (window - overlap) := by
          calc x = (x / (window - overlap)) * (window - overlap) := by
                field_simp
            _ < (((⌊x / (window - overlap)⌋ : ℤ) : ℚ) + 1) *
                (window - overlap) := mul_lt_mul_of_pos_right h7 hstep
            _ = ((j : ℕ) : ℚ) * (window - overlap) + (window - overlap) := by
                rw [h8]
                ring
        linarith
      · -- x lies at or beyond the last start: the last window reaches total
        have hjeq : j = (segmentWindows window (window - overlap) total
            hstep).length - 1 := by omega
        have hjcast : ((j : ℕ) : ℚ) =
            (((segmentWindows window (window - overlap) total hstep).length :
              ℕ) : ℚ) - 1 := by
          rw [hjeq]
          have := hn1
          push_cast [Nat.cast_sub this]
          ring
        have hlast : total ≤ ((j : ℕ) : ℚ) * (window - overlap) + window := by
          rw [hjcast, hlen]
          have h11 := hceil_le
          nlinarith
        linarith
  · -- every emitted window is nonempty and lies inside the interval
    intro w hw
    rw [hrw, List.mem_map] at hw
    obtain ⟨j, hj, rfl⟩ := hw
    rw [List.mem_range] at hj
    have hj1 : (j : ℚ) * (window - overlap) < total := by
      rcases Nat.lt_or_ge 1 (max 1 (⌈(total - overlap) /
          (window - overlap)⌉.toNat)) with hn | hn
      · -- at least two windows: every start is below the last boundary
        have h2 : (2 : ℤ) ≤ ⌈(total - overlap) / (window - overlap)⌉ := by
          omega
        have h12 : ((j : ℤ)) ≤ ⌈(total - overlap) / (window - overlap)⌉ -
            1 := by omega
        have h13 : (⌈(total - overlap) / (window - overlap)⌉ : ℚ) - 1 <
            (total - overlap) / (window - overlap) := by
          have := Int.ceil_lt_add_one ((total - overlap) / (window - overlap))
          push_cast at this ⊢
          linarith
        have h14 : ((j : ℚ)) < (total - overlap) / (window - overlap) := by
          have h15 : ((j : ℚ)) ≤ (⌈(total - overlap) /
              (window - overlap)⌉ : ℚ) - 1 := by
            exact_mod_cast h12
          linarith
        have h16 : (j : ℚ) * (window - overlap) < total - overlap := by
          calc (j : ℚ) * (window - overlap) <
              ((total - overlap) / (window - overlap)) * (window - overlap) :=
                mul_lt_mul_of_pos_right h14 hstep
            _ = total - overlap := by field_simp
        linarith
      · -- a single window starting at 0
        have hj0 : j = 0 := by omega
        rw [hj0]
        simpa using h0
    refine ⟨?_, ?_, ?_⟩
    · positivity
    · rw [lt_min_iff]
      constructor
      · show ((j : ℚ) * (window - overlap)) <
          (j : ℚ) * (window - overlap) + window
        linarith
      · exact hj1
    · exact min_le_right _ _

/-- Statement of claim C2 exactly as written, including the plain
ceiling window-count formula with no clamping at one. -/
def ClaimC2 : Prop :=
  ∀ (total window overlap : ℚ), 0 < total → 0 ≤ overlap →
    ∀ hlt : overlap < window,
      ((segmentWindows window (window - overlap) total
          (sub_pos.mpr hlt)).length : ℤ) =
          ⌈(total - overlap) / (window - overlap)⌉ ∧
        (∀ j : ℕ, j < (segmentWindows window (window - overlap) total
            (sub_pos.mpr hlt)).length →
          (segmentWindows window (window - overlap) total
            (sub_pos.mpr hlt))[j]? =
            some ((j : ℚ) * (window - overlap),
              min ((j : ℚ) * (window - overlap) + window) total)) ∧
        (∀ x : ℚ, 0 ≤ x → x < total →
          ∃ w ∈ segmentWindows window (window - overlap) total
            (sub_pos.mpr hlt), w.1 ≤ x ∧ x < w.2)

/-- Claim C2 is false of the code at totalDuration 10, window 180,
overlap 20: the loop emits one window covering the whole recording, but
ceil ((10 - 20) / 160) = 0, so the claimed window-count formula fails
whenever the total duration does not exceed the overlap. -/
theorem c2_counterexample : ¬ ClaimC2 := by
  intro h
  have h1 := (h 10 180 20 (by norm_num) (by norm_num) (by norm_num)).1
  have h2 : (segmentWindows 180 (180 - 20) 10
      (sub_pos.mpr (by norm_num : (20 : ℚ) < 180))).length = 1 := by
    rw [segmentWindows, segmentFrom]
    norm_num
  rw [h2] at h1
  have h3 : (⌈((10 : ℚ) - 20) / (180 - 20)⌉ : ℤ) = 0 := by
    rw [Int.ceil_eq_iff] <;> norm_num
  rw [h3] at h1
  exact absurd h1 (by norm_num)

/-- Closed instance of the amended claim C2 at the spec's end-to-end
scenario configuration: totalDuration 400, window 180, overlap 20. -/
theorem c2_witness :
    (segmentWindows 180 (180 - 20) 400
        (sub_pos.mpr (by norm_num : (20 : ℚ) < 180))).length =
        max 1 (⌈((400 : ℚ) - 20) / (180 - 20)⌉.toNat) ∧
      (∀ j : ℕ, j < (segmentWindows 180 (180 - 20) 400
          (sub_pos.mpr (by norm_num : (20 : ℚ) < 180))).length →
        (segmentWindows 180 (180 - 20) 400
          (sub_pos.mpr (by norm_num : (20 : ℚ) < 180)))[j]? =
          some ((j : ℚ) * (180 - 20),
            min ((j : ℚ) * (180 - 20) + 180) 400)) ∧
      (∀ j : ℕ, j + 1 < (segmentWindows 180 (180 - 20) 400
          (sub_pos.mpr (by norm_num : (20 : ℚ) < 180))).length →
        (segmentWindows 180 (180 - 20) 400
          (sub_pos.mpr (by norm_num : (20 : ℚ) < 180)))[j]? =
          some ((j : ℚ) * (180 - 20), (j : ℚ) * (180 - 20) + 180)) ∧
      (∀ x : ℚ, 0 ≤ x → x < 400 →
        ∃ w ∈ segmentWindows 180 (180 - 20) 400
          (sub_pos.mpr (by norm_num : (20 : ℚ) < 180)),
          w.1 ≤ x ∧ x < w.2) ∧
      (∀ w ∈ segmentWindows 180 (180 - 20) 400
          (sub_pos.mpr (by norm_num : (20 : ℚ) < 180)),
        0 ≤ w.1 ∧ w.1 < w.2 ∧ w.2 ≤ 400) :=
  c2_segmentation 400 180 20 (by norm_num) (by norm_num) (by norm_num)
    (sub_pos.mpr (by norm_num : (20 : ℚ) < 180))

/-! Invariants of the scheduling loop. -/

/-- Consistency invariant tying the phases, the slot array and the
completed counter of a scheduler state to the oracle. -/
structure GoodState (oracle : List (Except String TranscriptionResult))
    (s : SchedState) : Prop where
  len_phases : s.phases.length = oracle.length
  len_slots : s.slots.length = oracle.length
  slot_done : ∀ (i : ℕ) (o : Except String TranscriptionResult),
    s.phases[i]? = some TaskPhase.done → oracle[i]? = some o →
    s.slots[i]? = some (some (taskResult o))
  slot_undone : ∀ (i : ℕ) (p : TaskPhase), s.phases[i]? = some p →
    p ≠ TaskPhase.done → s.slots[i]? = some none
  completed : s.completedCount = countFilled s.slots

theorem good_init (oracle : List (Except String TranscriptionResult)) :
    GoodState oracle (initState oracle.length) := by
  refine ⟨by simp [initState], by simp [initState], ?_, ?_, ?_⟩
  · intro i o hph _
    rw [initState] at hph
    simp only [List.getElem?_replicate] at hph
    split at hph
    · cases hph
    · cases hph
  · intro i p hph _
    rw [initState] at hph
    simp only [List.getElem?_replicate] at hph
    split at hph
    case isTrue h =>
      rw [initState]
      simp [List.getElem?_replicate, h]
    case isFalse => cases hph
  · rw [initState, countFilled]
    induction oracle.length with
    | zero => rfl
    | succ n ih => simpa [List.replicate_succ, List.filter] using ih

theorem countFilled_set (slots : List (Option TranscriptionResult)) (i : ℕ)
    (r : TranscriptionResult) (h : slots[i]? = some none) :
    countFilled (slots.set i (some r)) = countFilled slots + 1 := by
  induction slots generalizing i with
  | nil => cases h
  | cons a l ih =>
    cases i with
    | zero =>
      simp only [List.getElem?_cons_zero, Option.some_inj] at h
      subst h
      simp [countFilled, List.set, List.filter]
    | succ n =>
      simp only [List.getElem?_cons_succ] at h
      have := ih n h
      cases ha : a with
      | none => simpa [countFilled, List.set, List.filter] using this
      | some b =>
        simp only [countFilled, List.set, List.filter] at this ⊢
        simpa using this

theorem good_step (maxConc : ℕ)
    (oracle : List (Except String TranscriptionResult)) (s t : SchedState)
    (hg : GoodState oracle s) (hst : SchedStep maxConc oracle s t) :
    GoodState oracle t := by
  cases hst with
  | start i hp _ =>
    refine ⟨by simpa using hg.len_phases, hg.len_slots, ?_, ?_, hg.completed⟩
    · intro j o hph ho
      by_cases hij : i = j
      · subst hij
        have hi : i < s.phases.length := by
          obtain ⟨hlt, _⟩ := List.getElem?_eq_some_iff.mp hp
          exact hlt
        rw [List.getElem?_set_eq hi] at hph
        cases hph
      · rw [List.getElem?_set_ne hij] at hph
        exact hg.slot_done j o hph ho
    · intro j p hph hp2
      by_cases hij : i = j
      · subst hij
        exact hg.slot_undone i .pending hp (by simp)
      · rw [List.getElem?_set_ne hij] at hph
        exact hg.slot_undone j p hph hp2
  | finish i o hp ho =>
    have hi : i < s.phases.length := by
      obtain ⟨hlt, _⟩ := List.getElem?_eq_some_iff.mp hp
      exact hlt
    have hi2 : i < s.slots.length := by
      rw [hg.len_slots, ← hg.len_phases]
      exact hi
    have hslot : s.slots[i]? = some none :=
      hg.slot_undone i .awaiting hp (by simp)
    refine ⟨by simpa using hg.len_phases, by simpa using hg.len_slots,
      ?_, ?_, ?_⟩
    · intro j o2 hph ho2
      by_cases hij : i = j
      · subst hij
        rw [ho] at ho2
        cases ho2
        rw [List.getElem?_set_eq hi2]
      · rw [List.getElem?_set_ne hij] at hph
        rw [List.getElem?_set_ne hij]
        exact hg.slot_done j o2 hph ho2
    · intro j p hph hp2
      by_cases hij : i = j
      · subst hij
        rw [List.getElem?_set_eq hi] at hph
        cases hph
        exact absurd rfl hp2
      · rw [List.getElem?_set_ne hij] at hph
        rw [List.getElem?_set_ne hij]
        exact hg.slot_undone j p hph hp2
    · show s.completedCount + 1 = countFilled (s.slots.set i (some _))
      rw [countFilled_set s.slots i _ hslot, hg.completed]

theorem reachable_good (maxConc : ℕ)
    (oracle : List (Except String TranscriptionResult)) (s : SchedState)
    (h : Relation.ReflTransGen (SchedStep maxConc oracle)
      (initState oracle.length) s) : GoodState oracle s := by
  induction h with
  | refl => exact good_init oracle
  | tail _ hstep ih => exact good_step _ _ _ _ ih hstep

/-- In every reachable state of the scheduler the busy-wait admission
condition is false: completedCount always equals the number of filled
slots (both are updated in the same synchronous continuation), so their
difference never reaches MAX_CONCURRENCY and the guard admits every
task immediately. -/
theorem reachable_not_blocked (maxConc : ℕ) (hpos : 0 < maxConc)
    (oracle : List (Except String TranscriptionResult)) (s : SchedState)
    (h : Reachable maxConc oracle s) : ¬ admissionBlocked maxConc s := by
  have hg := reachable_good maxConc oracle s h
  rw [admissionBlocked, hg.completed]
  omega

/-- Oracle outcomes used by the concrete concurrency trace. -/
def demoOracle : List (Except String TranscriptionResult) :=
  [.ok emptyResult, .ok emptyResult, .ok emptyResult]

/-- Claim C3 fails on the code: with three chunks and MAX_CONCURRENCY
= 2, the scheduler reaches a state in which all three tasks await the
oracle simultaneously.  The admission check compares completedCount
against the number of filled result slots, two quantities that are
always equal, so it never blocks any task (reachable_not_blocked);
the intended bound is exceeded as soon as three chunks exist. -/
theorem c3_unbounded_concurrency :
    ∃ s, Reachable MAX_CONCURRENCY demoOracle s ∧
      countAwaiting s = 3 ∧ MAX_CONCURRENCY = 2 ∧
      MAX_CONCURRENCY < countAwaiting s := by
  refine ⟨⟨[.awaiting, .awaiting, .awaiting], [none, none, none], 0⟩,
    ?_, by decide, by decide, by decide⟩
  have h1 : Relation.ReflTransGen (SchedStep MAX_CONCURRENCY demoOracle)
      (initState demoOracle.length)
      ⟨[.awaiting, .pending, .pending], [none, none, none], 0⟩ :=
    Relation.ReflTransGen.single
      (SchedStep.start _ 0 (by decide) (by decide))
  have h2 := Relation.ReflTransGen.tail h1
    (SchedStep.start ⟨[.awaiting, .pending, .pending], [none, none, none], 0⟩
      1 (by decide) (by decide))
  exact Relation.ReflTransGen.tail h2
    (SchedStep.start ⟨[.awaiting, .awaiting, .pending], [none, none, none], 0⟩
      2 (by decide) (by decide))

/-- All chunk tasks have settled. -/
def allDone (s : SchedState) : Prop :=
  ∀ p ∈ s.phases, p = TaskPhase.done

/-- Remaining work of one task, used as a termination measure. -/
def phaseWeight : TaskPhase → ℕ
  | .pending => 2
  | .awaiting => 1
  | .done => 0

/-- Remaining work of the whole run. -/
def stateWeight (s : SchedState) : ℕ :=
  (s.phases.map phaseWeight).sum

theorem weight_set (l : List TaskPhase) (i : ℕ) (p q : TaskPhase)
    (h : l[i]? = some p) :
    ((l.set i q).map phaseWeight).sum + phaseWeight p =
      (l.map phaseWeight).sum + phaseWeight q := by
  induction l generalizing i with
  | nil => cases h
  | cons a l ih =>
    cases i with
    | zero =>
      simp only [List.getElem?_cons_zero, Option.some_inj] at h
      subst h
      simp only [List.set, List.map_cons, List.sum_cons]
      omega
    | succ n =>
      simp only [List.getElem?_cons_succ] at h
      have := ih n h
      simp only [List.set, List.map_cons, List.sum_cons]
      omega

theorem allDone_terminal (maxConc : ℕ)
    (oracle : List (Except String TranscriptionResult)) (s : SchedState)
    (hall : allDone s) : Terminal maxConc oracle s := by
  intro t hst
  cases hst with
  | start i hp _ =>
    have hmem : TaskPhase.pending ∈ s.phases := by
      obtain ⟨hlt, heq⟩ := List.getElem?_eq_some_iff.mp hp
      rw [← heq]
      exact List.getElem_mem hlt
    cases hall _ hmem
  | finish i o hp _ =>
    have hmem : TaskPhase.awaiting ∈ s.phases := by
      obtain ⟨hlt, heq⟩ := List.getElem?_eq_some_iff.mp hp
      rw [← heq]
      exact List.getElem_mem hlt
    cases hall _ hmem

theorem stuck_allDone (maxConc : ℕ) (hpos : 0 < maxConc)
    (oracle : List (Except String TranscriptionResult)) (s : SchedState)
    (hg : GoodState oracle s) (hterm : Terminal maxConc oracle s) :
    allDone s := by
  by_contra hall
  rw [allDone] at hall
  push_neg at hall
  obtain ⟨p, hpmem, hpne⟩ := hall
  obtain ⟨i, hilt, hieq⟩ := List.mem_iff_getElem.mp hpmem
  have hip : s.phases[i]? = some p := by
    rw [List.getElem?_eq_getElem hilt, hieq]
  cases p with
  | done => exact hpne rfl
  | pending =>
    have hnb : ¬ admissionBlocked maxConc s := by
      rw [admissionBlocked, hg.completed]
      omega
    exact hterm _ (SchedStep.start s i hip hnb)
  | awaiting =>
    have hio : i < oracle.length := by
      rw [← hg.len_phases]
      exact hilt
    exact hterm _
      (SchedStep.finish s i oracle[i] hip (List.getElem?_eq_getElem hio))

theorem allDone_slots (oracle : List (Except String TranscriptionResult))
    (s : SchedState) (hg : GoodState oracle s) (hall : allDone s) :
    s.slots = oracle.map (fun o => some (taskResult o)) := by
  apply List.ext_getElem?
  intro n
  by_cases hn : n < oracle.length
  · have hpl : n < s.phases.length := by
      rw [hg.len_phases]
      exact hn
    have hdone : s.phases[n] = TaskPhase.done :=
      hall _ (List.getElem_mem hpl)
    have hp : s.phases[n]? = some TaskPhase.done := by
      rw [List.getElem?_eq_getElem hpl, hdone]
    have ho : oracle[n]? = some oracle[n] := List.getElem?_eq_getElem hn
    rw [hg.slot_done n oracle[n] hp ho, List.getElem?_map, ho]
    rfl
  · have h1 : s.slots[n]? = none := by
      apply List.getElem?_eq_none
      rw [hg.len_slots]
      omega
    have h2 : (oracle.map (fun o => some (taskResult o)))[n]? = none := by
      apply List.getElem?_eq_none
      rw [List.length_map]
      omega
    rw [h1, h2]

theorem exists_allDone (maxConc : ℕ) (hpos : 0 < maxConc)
    (oracle : List (Except String TranscriptionResult)) :
    ∀ (k : ℕ) (s : SchedState), stateWeight s = k → GoodState oracle s →
      ∃ t, Relation.ReflTransGen (SchedStep maxConc oracle) s t ∧
        allDone t := by
  intro k
  induction k using Nat.strong_induction_on with
  | _ k ih =>
    intro s hk hg
    by_cases hall : allDone s
    · exact ⟨s, Relation.ReflTransGen.refl, hall⟩
    · rw [allDone] at hall
      push_neg at hall
      obtain ⟨p, hpmem, hpne⟩ := hall
      obtain ⟨i, hilt, hieq⟩ := List.mem_iff_getElem.mp hpmem
      have hip : s.phases[i]? = some p := by
        rw [List.getElem?_eq_getElem hilt, hieq]
      cases p with
      | done => exact absurd rfl hpne
      | pending =>
        have hnb : ¬ admissionBlocked maxConc s := by
          rw [admissionBlocked, hg.completed]
          omega
        have hstep : SchedStep maxConc oracle s
            { s with phases := s.phases.set i TaskPhase.awaiting } :=
          SchedStep.start s i hip hnb
        have hwlt : stateWeight
            { s with phases := s.phases.set i TaskPhase.awaiting } < k := by
          have hws := weight_set s.phases i TaskPhase.pending
            TaskPhase.awaiting hip
          rw [stateWeight] at hk
          simp only [stateWeight, phaseWeight] at hws ⊢
          omega
        obtain ⟨t, hstar, hdone⟩ := ih _ hwlt _ rfl
          (good_step maxConc oracle s _ hg hstep)
        exact ⟨t, Relation.ReflTransGen.head hstep hstar, hdone⟩
      | awaiting =>
        have hio : i < oracle.length := by
          rw [← hg.len_phases]
          exact hilt
        have hstep : SchedStep maxConc oracle s
            { phases := s.phases.set i TaskPhase.done,
              slots := s.slots.set i (some (taskResult oracle[i])),
              completedCount := s.completedCount + 1 } :=
          SchedStep.finish s i oracle[i] hip (List.getElem?_eq_getElem hio)
        have hwlt : stateWeight
            { phases := s.phases.set i TaskPhase.done,
              slots := s.slots.set i (some (taskResult oracle[i])),
              completedCount := s.completedCount + 1 } < k := by
          have hws := weight_set s.phases i TaskPhase.awaiting
            TaskPhase.done hip
          rw [stateWeight] at hk
          simp only [stateWeight, phaseWeight] at hws ⊢
          omega
        obtain ⟨t, hstar, hdone⟩ := ih _ hwlt _ rfl
          (good_step maxConc oracle s _ hg hstep)
        exact ⟨t, Relation.ReflTransGen.head hstep hstar, hdone⟩

/-- Claim C4: when the oracle call for chunk i throws while the other
chunks succeed, (a) the scheduled run can always run to completion (a
terminal state is reachable); (b) in every reachable terminal state all
slots are settled deterministically, slot i holding the empty
ChunkResult sentinel; and (c) the final reconciled result still
contains, for every successful chunk j, every line that chunk owns
under the tiling policy (shifted by its offset) and, for every
vocabulary item of chunk j, an entry with a case-insensitively equal
word.  No exception escapes processAudio in the model: every task body
is the total function taskResult (the catch converts a thrown error
into the empty ChunkResult) and the merge is a total function of the
slot array. -/
theorem c4_chunk_failure_isolated
    (oracle : List (Except String TranscriptionResult)) (i : ℕ) (msg : String)
    (hi : oracle[i]? = some (.error msg))
    (hsucc : ∀ (j : ℕ) (o : Except String TranscriptionResult), j ≠ i →
      oracle[j]? = some o → ∃ r, o = .ok r)
    (stepSize : ℚ) :
    (∃ s, Reachable MAX_CONCURRENCY oracle s ∧
      Terminal MAX_CONCURRENCY oracle s) ∧
      (∀ s, Reachable MAX_CONCURRENCY oracle s →
        Terminal MAX_CONCURRENCY oracle s →
        s.slots = oracle.map (fun o => some (taskResult o)) ∧
        s.slots[i]? = some (some emptyResult)) ∧
      (∀ (j : ℕ) (r : TranscriptionResult), oracle[j]? = some (.ok r) →
        (∀ L ∈ r.transcript,
          (j = oracle.length - 1 ∨ L.startTimeInSeconds < stepSize) →
          offsetLine ((j : ℚ) * stepSize) L ∈
            (processAudioTiled stepSize (oracle.map taskResult)).transcript) ∧
        (∀ v ∈ r.vocabulary,
          ∃ v2 ∈ (processAudioTiled stepSize
              (oracle.map taskResult)).vocabulary,
            v2.word.toLower = v.word.toLower)) := by
  have hpos : 0 < MAX_CONCURRENCY := by
    rw [MAX_CONCURRENCY]
    omega
  refine ⟨?_, ?_, ?_⟩
  · obtain ⟨t, hstar, hdone⟩ := exists_allDone MAX_CONCURRENCY hpos oracle
      (stateWeight (initState oracle.length)) (initState oracle.length) rfl
      (good_init oracle)
    exact ⟨t, hstar, allDone_terminal MAX_CONCURRENCY oracle t hdone⟩
  · intro s hreach hterm
    have hg := reachable_good MAX_CONCURRENCY oracle s hreach
    have hall := stuck_allDone MAX_CONCURRENCY hpos oracle s hg hterm
    have hslots := allDone_slots oracle s hg hall
    refine ⟨hslots, ?_⟩
    rw [hslots, List.getElem?_map, hi]
    rfl
  · intro j r hj
    constructor
    · intro L hL hown
      have hjr : (oracle.map taskResult)[j]? = some r := by
        rw [List.getElem?_map, hj]
        rfl
      apply ((List.perm_insertionSort startLE _).mem_iff).mpr
      rw [mem_reconcileTiled_transcript]
      refine ⟨j, r, hjr, L, hL, ?_, rfl⟩
      rw [List.length_map]
      exact hown
    · intro v hv
      have hjr : (oracle.map taskResult)[j]? = some r := by
        rw [List.getElem?_map, hj]
        rfl
      have hrmem : r ∈ oracle.map taskResult := by
        obtain ⟨hlt, heq⟩ := List.getElem?_eq_some_iff.mp hjr
        rw [← heq]
        exact List.getElem_mem hlt
      have hflat : v ∈ ((oracle.map taskResult).map
          (fun r2 => r2.vocabulary)).flatten := by
        rw [List.mem_flatten]
        exact ⟨r.vocabulary, List.mem_map_of_mem _ hrmem, hv⟩
      have hcov := (vocabFold_spec (((oracle.map taskResult).map
          (fun r2 => r2.vocabulary)).flatten) [] List.Pairwise.nil).2.2.1
      obtain ⟨v2, hv2, heqw⟩ := hcov v hflat
      refine ⟨v2, ?_, heqw⟩
      show v2 ∈ (reconcileTiled stepSize (oracle.map taskResult)).vocabulary
      rw [reconcileTiled_vocabulary]
      exact hv2

/-- Concrete three-chunk scenario for claim C4: the middle oracle call
throws, the other two succeed. -/
def failDemoOracle : List (Except String TranscriptionResult) :=
  [.ok ⟨[⟨"A", "first", "f1", 1, 2⟩], [⟨"alpha", "i", "d", "e"⟩]⟩,
    .error "boom",
    .ok ⟨[⟨"B", "third", "t1", 3, 4⟩], [⟨"beta", "i", "d", "e"⟩]⟩]

/-- Closed instance of claim C4 at the concrete three-chunk scenario
with a failing middle chunk. -/
theorem c4_witness :
    (∃ s, Reachable MAX_CONCURRENCY failDemoOracle s ∧
      Terminal MAX_CONCURRENCY failDemoOracle s) ∧
      (∀ s, Reachable MAX_CONCURRENCY failDemoOracle s →
        Terminal MAX_CONCURRENCY failDemoOracle s →
        s.slots = failDemoOracle.map (fun o => some (taskResult o)) ∧
        s.slots[1]? = some (some emptyResult)) ∧
      (∀ (j : ℕ) (r : TranscriptionResult),
        failDemoOracle[j]? = some (.ok r) →
        (∀ L ∈ r.transcript,
          (j = failDemoOracle.length - 1 ∨ L.startTimeInSeconds < 160) →
          offsetLine ((j : ℚ) * 160) L ∈
            (processAudioTiled 160
              (failDemoOracle.map taskResult)).transcript) ∧
        (∀ v ∈ r.vocabulary,
          ∃ v2 ∈ (processAudioTiled 160
              (failDemoOracle.map taskResult)).vocabulary,
            v2.word.toLower = v.word.toLower)) :=
  c4_chunk_failure_isolated failDemoOracle 1 "boom" rfl
    (by
      intro j o hj ho
      match j, ho with
      | 0, ho =>
        refine ⟨⟨[⟨"A", "first", "f1", 1, 2⟩], [⟨"alpha", "i", "d", "e"⟩]⟩, ?_⟩
        simpa [failDemoOracle] using ho.symm
      | 1, ho => exact absurd rfl hj
      | 2, ho =>
        refine ⟨⟨[⟨"B", "third", "t1", 3, 4⟩], [⟨"beta", "i", "d", "e"⟩]⟩, ?_⟩
        simpa [failDemoOracle] using ho.symm)
    160

/-! Claims about parseTimeToSeconds (variant 1, geminiService.ts lines
15-34). -/

theorem splitOnChar_of_not_contains (c : Char) (l : List Char)
    (h : l.contains c = false) : splitOnChar c l = [l] := by
  induction l with
  | nil => rfl
  | cons a l ih =>
    simp only [List.contains_cons, Bool.or_eq_false_iff, beq_eq_false_iff_ne]
      at h
    obtain ⟨hne, hl⟩ := h
    rw [splitOnChar]
    rw [if_neg (by simp only [beq_iff_eq]; exact fun h2 => hne h2.symm),
      ih hl]

/-- Statement of claim C5 exactly as written: numeric inputs returned
unchanged; a colon string with two parts yields m * 60 + s and with
three parts h * 3600 + m * 60 + s (in JavaScript number arithmetic,
where a non-numeric part is NaN and NaN propagates); any other string
yields its plain float parse with a failed parse (NaN) yielding 0;
undefined, null and the empty string yield 0; and the quoted concrete
cases. -/
def ClaimC5 : Prop :=
  (∀ q, parseTimeToSeconds (.num q) = q) ∧
    parseTimeToSeconds .undef = some 0 ∧
    parseTimeToSeconds .null = some 0 ∧
    parseTimeToSeconds (.str "") = some 0 ∧
    (∀ (s : String) (m s2 : Option ℚ),
      (splitOnChar ':' (trimChars s.toList)).map numOfChars = [m, s2] →
      parseTimeToSeconds (.str s) = jsAdd (jsMul m 60) s2) ∧
    (∀ (s : String) (h m s2 : Option ℚ),
      (splitOnChar ':' (trimChars s.toList)).map numOfChars = [h, m, s2] →
      parseTimeToSeconds (.str s) =
        jsAdd (jsAdd (jsMul h 3600) (jsMul m 60)) s2) ∧
    (∀ s : String, trimChars s.toList ≠ [] →
      (trimChars s.toList).contains ':' = false →
      parseTimeToSeconds (.str s) =
        some ((parseFloatChars (trimChars s.toList)).getD 0)) ∧
    parseTimeToSeconds (.str "01:02") = some 62 ∧
    parseTimeToSeconds (.str "01:02:03") = some 3723 ∧
    parseTimeToSeconds (.num (some (91 / 2))) = some (91 / 2) ∧
    parseTimeToSeconds (.str "abc") = some 0

/-- Claim C5 is false of the code on the input "5:x": the code computes
parts[0] * 60 + (parts[1] || 0) = 5 * 60 + 0 = 300, while the claimed
formula m * 60 + s is NaN because Number("x") is NaN; dually, on
"ab:cd" the code returns NaN while the claim's parse-failure clause
promises 0.  The claimed formula lacks the || 0 guard the code applies
to the seconds part. -/
theorem c5_counterexample : ¬ ClaimC5 := by
  intro h
  obtain ⟨-, -, -, -, h2, -⟩ := h
  have hparts : (splitOnChar ':' (trimChars "5:x".toList)).map numOfChars =
      [some 5, none] := by
    simp [trimChars, splitOnChar, numOfChars, parseDecPrefix, digitsToNat,
      digitVal, isJsWs]
  have hval : parseTimeToSeconds (.str "5:x") = some 300 := by
    simp [parseTimeToSeconds, trimChars, splitOnChar, numOfChars,
      parseDecPrefix, digitsToNat, digitVal, jsAdd, jsMul, jsOrZero, isJsWs,
      parseFloatChars]
    norm_num
  have hclaim := h2 "5:x" (some 5) none hparts
  rw [hval] at hclaim
  simp [jsAdd, jsMul] at hclaim

/-- Amended claim C5, the exact behaviour of variant 1: numeric inputs
(NaN included) are returned unchanged; undefined, null and strings that
trim to empty yield 0; a trimmed string containing a colon that splits
into two parts yields Number(p0) * 60 + (Number(p1) || 0) and into
three parts Number(p0) * 3600 + Number(p1) * 60 + (Number(p2) || 0), in
NaN-propagating JavaScript arithmetic with the || 0 guard applied to
the seconds part only (so "5:x" gives 300 while "x:5" gives NaN);
every other string yields its plain longest-prefix float parse with NaN
collapsed to 0; and the concrete cases of the claim all hold. -/
theorem c5_parse_time :
    (∀ q, parseTimeToSeconds (.num q) = q) ∧
      parseTimeToSeconds .undef = some 0 ∧
      parseTimeToSeconds .null = some 0 ∧
      (∀ s : String, trimChars s.toList = [] →
        parseTimeToSeconds (.str s) = some 0) ∧
      (∀ (s : String) (m s2 : Option ℚ),
        (splitOnChar ':' (trimChars s.toList)).map numOfChars = [m, s2] →
        parseTimeToSeconds (.str s) = jsAdd (jsMul m 60) (jsOrZero s2)) ∧
      (∀ (s : String) (h m s2 : Option ℚ),
        (splitOnChar ':' (trimChars s.toList)).map numOfChars = [h, m, s2] →
        parseTimeToSeconds (.str s) =
          jsAdd (jsAdd (jsMul h 3600) (jsMul m 60)) (jsOrZero s2)) ∧
      (∀ s : String, trimChars s.toList ≠ [] →
        ¬ ((trimChars s.toList).contains ':' = true ∧
          ((splitOnChar ':' (trimChars s.toList)).length = 2 ∨
            (splitOnChar ':' (trimChars s.toList)).length = 3)) →
        parseTimeToSeconds (.str s) =
          some ((parseFloatChars (trimChars s.toList)).getD 0)) ∧
      parseTimeToSeconds (.str "01:02") = some 62 ∧
      parseTimeToSeconds (.str "01:02:03") = some 3723 ∧
      parseTimeToSeconds (.num (some (91 / 2))) = some (91 / 2) ∧
      parseTimeToSeconds (.str "abc") = some 0 ∧
      parseTimeToSeconds (.str "5:x") = some 300 ∧
      parseTimeToSeconds (.str "ab:cd") = none := by
  have hbranch2 : ∀ (s : String) (m s2 : Option ℚ),
      (splitOnChar ':' (trimChars s.toList)).map numOfChars = [m, s2] →
      parseTimeToSeconds (.str s) = jsAdd (jsMul m 60) (jsOrZero s2) := by
    intro s m s2 hparts
    have hcont : (trimChars s.toList).contains ':' = true := by
      by_contra hc
      rw [Bool.not_eq_true] at hc
      rw [splitOnChar_of_not_contains ':' _ hc] at hparts
      cases hparts
    have hne : (trimChars s.toList).isEmpty = false := by
      cases ht : trimChars s.toList with
      | nil =>
        rw [ht] at hcont
        cases hcont
      | cons a l => rfl
    simp only [parseTimeToSeconds, hne, hcont, hparts, Bool.false_eq_true,
      if_false, if_true]
  have hbranch3 : ∀ (s : String) (h m s2 : Option ℚ),
      (splitOnChar ':' (trimChars s.toList)).map numOfChars = [h, m, s2] →
      parseTimeToSeconds (.str s) =
        jsAdd (jsAdd (jsMul h 3600) (jsMul m 60)) (jsOrZero s2) := by
    intro s h m s2 hparts
    have hcont : (trimChars s.toList).contains ':' = true := by
      by_contra hc
      rw [Bool.not_eq_true] at hc
      rw [splitOnChar_of_not_contains ':' _ hc] at hparts
      cases hparts
    have hne : (trimChars s.toList).isEmpty = false := by
      cases ht : trimChars s.toList with
      | nil =>
        rw [ht] at hcont
        cases hcont
      | cons a l => rfl
    simp only [parseTimeToSeconds, hne, hcont, hparts, Bool.false_eq_true,
      if_false, if_true]
  refine ⟨fun q => rfl, rfl, rfl, ?_, hbranch2, hbranch3, ?_, ?_, ?_, rfl,
    ?_, ?_, ?_⟩
  · intro s hs
    have hne : (trimChars s.toList).isEmpty = true := by
      rw [hs]
      rfl
    simp only [parseTimeToSeconds, hne, if_true]
  · intro s hne hnot
    have hne2 : (trimChars s.toList).isEmpty = false := by
      cases ht : trimChars s.toList with
      | nil => exact absurd ht hne
      | cons a l => rfl
    by_cases hcont : (trimChars s.toList).contains ':' = true
    · rcases hlist : (splitOnChar ':' (trimChars s.toList)).map numOfChars
        with - | ⟨a, - | ⟨b, - | ⟨c, - | ⟨d, rest⟩⟩⟩⟩
      · simp only [parseTimeToSeconds, hne2, hcont, hlist,
          Bool.false_eq_true, if_false, if_true]
      · simp only [parseTimeToSeconds, hne2, hcont, hlist,
          Bool.false_eq_true, if_false, if_true]
      · exfalso
        apply hnot
        refine ⟨hcont, Or.inl ?_⟩
        have := congrArg List.length hlist
        simpa using this
      · exfalso
        apply hnot
        refine ⟨hcont, Or.inr ?_⟩
        have := congrArg List.length hlist
        simpa using this
      · simp only [parseTimeToSeconds, hne2, hcont, hlist,
          Bool.false_eq_true, if_false, if_true]
    · rw [Bool.not_eq_true] at hcont
      simp only [parseTimeToSeconds, hne2, hcont, Bool.false_eq_true,
        if_false]
  · rw [hbranch2 "01:02" (some 1) (some 2)
      (by simp [trimChars, splitOnChar, numOfChars, parseDecPrefix,
        digitsToNat, digitVal, isJsWs])]
    simp [jsAdd, jsMul, jsOrZero]
    norm_num
  · rw [hbranch3 "01:02:03" (some 1) (some 2) (some 3)
      (by simp [trimChars, splitOnChar, numOfChars, parseDecPrefix,
        digitsToNat, digitVal, isJsWs])]
    simp [jsAdd, jsMul, jsOrZero]
    norm_num
  · simp [parseTimeToSeconds, trimChars, splitOnChar, numOfChars,
      parseDecPrefix, digitsToNat, digitVal, jsAdd, jsMul, jsOrZero, isJsWs,
      parseFloatChars]
  · rw [hbranch2 "5:x" (some 5) none
      (by simp [trimChars, splitOnChar, numOfChars, parseDecPrefix,
        digitsToNat, digitVal, isJsWs])]
    simp [jsAdd, jsMul, jsOrZero]
    norm_num
  · rw [hbranch2 "ab:cd" none none
      (by simp [trimChars, splitOnChar, numOfChars, parseDecPrefix,
        digitsToNat, digitVal, isJsWs])]
    simp [jsAdd, jsMul, jsOrZero]

/-- Closed instance of the amended claim C5: the two-part colon branch
applied to the concrete input "01:02". -/
theorem c5_witness :
    parseTimeToSeconds (.str "01:02") =
      jsAdd (jsMul (some 1) 60) (jsOrZero (some 2)) :=
  c5_parse_time.2.2.2.2.1 "01:02" (some 1) (some 2)
    (by simp [trimChars, splitOnChar, numOfChars, parseDecPrefix,
      digitsToNat, digitVal, isJsWs])

end AITranslate
